import Mathlib

/-!
Shallow embedding of src/ip_address_utils.py (geoip_windows_firewall).

Python strings are modelled as lists of characters; Python exceptions
(ValueError, IndexError) as an `Except PyErr` result.  Python `int()` is
modelled on decimal numerals with an optional leading minus sign, which is
the shape of every numeral the specified functions receive; `get_value`
is modelled as a total function that treats an unparsable octet as 0,
a case outside the domain of every claim (Python would raise there).
-/

abbrev PyStr := List Char

inductive PyErr where
  | valueError : PyErr
  | indexError : PyErr
deriving DecidableEq

/-- Model of Python str.split(sep) for a one-character separator:
splits at every occurrence of the separator, keeping empty pieces. -/
def splitOnChar (sep : Char) : PyStr → List PyStr
  | [] => [[]]
  | c :: cs =>
    if c = sep then [] :: splitOnChar sep cs
    else
      match splitOnChar sep cs with
      | [] => [[c]]
      | t :: ts => (c :: t) :: ts

/-- Model of Python sep.join(words) for a one-character separator. -/
def joinOn (sep : Char) : List PyStr → PyStr
  | [] => []
  | [w] => w
  | w :: ws => w ++ sep :: joinOn sep ws

def digitVal (c : Char) : Nat := c.toNat - 48

def parseDigitsAux : Nat → PyStr → Option Nat
  | acc, [] => some acc
  | acc, c :: cs => if c.isDigit then parseDigitsAux (10 * acc + digitVal c) cs else none

/-- Model of Python int() on a nonnegative decimal numeral. -/
def parseNatDigits : PyStr → Option Nat
  | [] => none
  | cs => parseDigitsAux 0 cs

/-- Model of Python int() allowing an optional leading minus sign. -/
def pyInt : PyStr → Option Int
  | '-' :: cs => (parseNatDigits cs).map fun n => -(n : Int)
  | cs => (parseNatDigits cs).map fun n => (n : Int)

/-- Model of Python str(n) for a natural number: its decimal numeral. -/
def natStr (n : Nat) : PyStr := Nat.toDigits 10 n

/-- Model of Python range(lo, hi) over integers. -/
def pyRange (lo hi : Int) : List Int :=
  (List.range (hi - lo).toNat).map fun (k : Nat) => lo + (k : Int)

/-- get_value (src/ip_address_utils.py:19-31): converts an IP address
string to its numeric value.  The source computes
int(octets_reversed[e]) * (1 << (e << 3)) for e = 0,1,2,3 and sums. -/
def get_value (ip_addr : PyStr) : Nat :=
  let ip_octets := (splitOnChar '.' ip_addr).reverse
  (List.range 4).foldl
    (fun acc exponent =>
      acc + ((parseNatDigits (ip_octets.getD exponent [])).getD 0) * (1 <<< (exponent <<< 3)))
    0

/-- The sum of 1 << i over a list of Python ints; a negative shift count
raises ValueError, exactly as Python 1 << i does. -/
def shiftSum (l : List Int) : Except PyErr Nat :=
  l.foldlM (fun (acc : Nat) (i : Int) =>
    if i < 0 then .error .valueError else .ok (acc + (1 <<< i.toNat))) 0

/-- get_min_value (src/ip_address_utils.py:33-42): value of the prefix
ANDed with the mask sum([1 << i for i in range(32 - mask, 32)]). -/
def get_min_value (pfx : PyStr) (mask : Int) : Except PyErr Nat := do
  let ip_num_value := get_value pfx
  let mask_value ← shiftSum (pyRange (32 - mask) 32)
  return ip_num_value &&& mask_value

/-- get_max_value (src/ip_address_utils.py:44-54): min_value plus
1 << i for each i in range(32 - mask). -/
def get_max_value (min_value : Nat) (mask : Int) : Nat :=
  (pyRange 0 (32 - mask)).foldl (fun acc i => acc + (1 <<< i.toNat)) min_value

/-- The tuple unpacking a, b = s.split(sep): ValueError unless the split
has exactly two pieces. -/
def split2 (sep : Char) (s : PyStr) : Except PyErr (PyStr × PyStr) :=
  match splitOnChar sep s with
  | [a, b] => .ok (a, b)
  | _ => .error .valueError

def optE {α : Type} : Option α → Except PyErr α
  | some a => .ok a
  | none => .error .valueError

/-- ip_cidr_to_ip_value_range (src/ip_address_utils.py:56-67). -/
def ip_cidr_to_ip_value_range (ip_cidr : PyStr) : Except PyErr (Nat × Nat) := do
  let pm ← split2 '/' ip_cidr
  let mask ← optE (pyInt pm.2)
  let min_value ← get_min_value pm.1 mask
  return (min_value, get_max_value min_value mask)

/-- value_to_ip (src/ip_address_utils.py:91-105): emits the four octets
(value & (255 << i)) / (1 << i) for i = 0, 8, 16, 24, then reverses and
joins them with dots. -/
def value_to_ip (value : Nat) : PyStr :=
  let v1 := (List.range 8).foldl (fun acc i => acc + (1 <<< i)) 0
  let octets := [0, 8, 16, 24].map fun i => natStr ((value &&& (v1 <<< i)) / (1 <<< i))
  joinOn '.' octets.reverse

/-- ip_cidr_to_ip_range (src/ip_address_utils.py:69-78). -/
def ip_cidr_to_ip_range (ip_cidr : PyStr) : Except PyErr (PyStr × PyStr) := do
  let r ← ip_cidr_to_ip_value_range ip_cidr
  return (value_to_ip r.1, value_to_ip r.2)

/-- itertools.product(l, l): all ordered pairs of elements of l. -/
def pyProduct {α : Type} (l : List α) : List (α × α) :=
  l.flatMap fun a => l.map fun b => (a, b)

/-- The loop test of get_ip_cidr_from_ips (src/ip_address_utils.py:124):
some pair of values disagrees at bit i. -/
def differsAt (values : List Nat) (i : Nat) : Bool :=
  (pyProduct values).any fun p => !(p.1 &&& (1 <<< i) == p.2 &&& (1 <<< i))

/-- The while loop of get_ip_cidr_from_ips (src/ip_address_utils.py:121-127),
parameterized by the remaining loop counter: starting from i, repeatedly
decrement; stop (break) at the first bit position where two values differ,
otherwise add that bit to the accumulated mask and continue; return the
final i together with the mask. -/
def coveringLoop (values : List Nat) : Nat → Nat → Nat × Nat
  | 0, mask => (0, mask)
  | i + 1, mask =>
    if differsAt values i then
      (i, mask)
    else
      coveringLoop values i (mask + (1 <<< i))

/-- get_ip_cidr_from_ips (src/ip_address_utils.py:107-131): the minimal
IP CIDR that includes a collection of IP addresses.  An empty collection
reaches ip_addrs[0] (all([]) is true) and raises IndexError. -/
def get_ip_cidr_from_ips (ip_addrs : List PyStr) : Except PyErr PyStr :=
  let values := ip_addrs.map get_value
  if (pyProduct values).all (fun p => p.1 == p.2) then
    match ip_addrs with
    | [] => .error .indexError
    | a :: _ => .ok (a ++ '/' :: natStr 32)
  else
    let im := coveringLoop values 32 0
    let pfx := im.2 &&& values.headD 0
    .ok (value_to_ip pfx ++ '/' :: natStr (32 - (im.1 + 1)))

/-- An IP address range: a pair of address strings (low, high).  The
source passes both 2-tuples and 2-element lists; both are modelled as
pairs, which is how all the range functions consume them. -/
abbrev IpRange := PyStr × PyStr

/-- compare_ip_address_ranges (src/ip_address_utils.py:133-139). -/
def compare_ip_address_ranges (ip_range_1 ip_range_2 : IpRange) : Int :=
  (get_value ip_range_1.1 : Int) - (get_value ip_range_2.1 : Int)

/-- The order induced by the comparator: r1 before-or-tied-with r2 when
compare_ip_address_ranges(r1, r2) <= 0, as functools.cmp_to_key uses it. -/
def rangeLe (ip_range_1 ip_range_2 : IpRange) : Prop :=
  compare_ip_address_ranges ip_range_1 ip_range_2 ≤ 0

instance : DecidableRel rangeLe := fun r1 r2 =>
  inferInstanceAs (Decidable (compare_ip_address_ranges r1 r2 ≤ 0))

/-- sort_ip_address_ranges (src/ip_address_utils.py:147-151).  Python
sorted() is a stable sort by the comparator; insertion sort is a stable
sort by the same total preorder, and a stable sort by a fixed total
preorder is unique, so this is exactly the Python result. -/
def sort_ip_address_ranges (ip_ranges : List IpRange) : List IpRange :=
  List.insertionSort rangeLe ip_ranges

/-- ip_ranges_overlap (src/ip_address_utils.py:141-145). -/
def ip_ranges_overlap (ip_range_1 ip_range_2 : IpRange) : Bool :=
  decide (get_value ip_range_1.2 ≥ get_value ip_range_2.1) &&
  decide (get_value ip_range_2.2 ≥ get_value ip_range_1.1)

/-- combine_ip_ranges (src/ip_address_utils.py:153-168). -/
def combine_ip_ranges (ip_range_1 ip_range_2 : IpRange) : IpRange :=
  ((if get_value ip_range_1.1 < get_value ip_range_2.1 then ip_range_1.1 else ip_range_2.1),
   (if get_value ip_range_1.2 > get_value ip_range_2.2 then ip_range_1.2 else ip_range_2.2))

/-- One iteration of the loop in consolidate_ip_ranges
(src/ip_address_utils.py:181-190): compare the next range with the last
accepted range only, merging on overlap and appending otherwise. -/
def consolidateStep (consolidated : List IpRange) (ip_range : IpRange) : List IpRange :=
  match consolidated.getLast? with
  | some last =>
    if ip_ranges_overlap ip_range last then
      consolidated.dropLast ++ [combine_ip_ranges ip_range last]
    else
      consolidated ++ [ip_range]
  | none => consolidated ++ [ip_range]

/-- consolidate_ip_ranges (src/ip_address_utils.py:170-192). -/
def consolidate_ip_ranges (ip_ranges : List IpRange) : List IpRange :=
  (sort_ip_address_ranges ip_ranges).foldl consolidateStep []

/-- consolidate_ip_cidrs (src/ip_address_utils.py:194-201).  Each merged
range, a pair of address strings, is fed to get_ip_cidr_from_ips as the
two-element collection of its endpoints. -/
def consolidate_ip_cidrs (ip_cidrs : List PyStr) : Except PyErr (List PyStr) := do
  let ip_ranges ← ip_cidrs.mapM ip_cidr_to_ip_range
  let consolidated_ranges := consolidate_ip_ranges ip_ranges
  consolidated_ranges.mapM fun r => get_ip_cidr_from_ips [r.1, r.2]

/-! Vocabulary for the statements. -/

/-- The canonical dotted-quad string of four octet values. -/
def quadStr (w x y z : Nat) : PyStr :=
  natStr w ++ '.' :: (natStr x ++ '.' :: (natStr y ++ '.' :: natStr z))

/-- A syntactically valid (canonical) dotted-quad address string. -/
def isQuad (s : PyStr) : Prop :=
  ∃ w x y z, w < 256 ∧ x < 256 ∧ y < 256 ∧ z < 256 ∧ s = quadStr w x y z

/-- The numeric value of a dotted quad, most significant octet first. -/
def quadVal (w x y z : Nat) : Nat := ((w * 256 + x) * 256 + y) * 256 + z

/-- Numeric lower bound of a range of address strings. -/
def rlo (r : IpRange) : Nat := get_value r.1

/-- Numeric upper bound of a range of address strings. -/
def rhi (r : IpRange) : Nat := get_value r.2

/-- The address value x lies in the (inclusive) range r. -/
def inRange (x : Nat) (r : IpRange) : Prop := rlo r ≤ x ∧ x ≤ rhi r

/-- A syntactically valid (canonical) CIDR string a.b.c.d/m with octets
in 0-255 and mask in 0-32. -/
def isCidrStr (c : PyStr) : Prop :=
  ∃ w x y z m, w < 256 ∧ x < 256 ∧ y < 256 ∧ z < 256 ∧ m ≤ 32 ∧
    c = quadStr w x y z ++ '/' :: natStr m

/-- A range of address strings that are the canonical addresses of an
aligned power-of-two block of the 32-bit address space: the shape every
range produced from a CIDR by ip_cidr_to_ip_range has. -/
def dyadicRange (r : IpRange) : Prop :=
  ∃ L k, k ≤ 32 ∧ 2 ^ k ∣ L ∧ L + 2 ^ k ≤ 2 ^ 32 ∧
    r.1 = value_to_ip L ∧ r.2 = value_to_ip (L + (2 ^ k - 1))

/-- The sweep of consolidate_ip_ranges, rephrased with the last accepted
range held separately from the already-final ranges in front of it; sweep
is proved equal to the foldl of consolidateStep below. -/
def sweep (last : IpRange) : List IpRange → List IpRange
  | [] => [last]
  | r :: rs =>
    if ip_ranges_overlap r last then sweep (combine_ip_ranges r last) rs
    else last :: sweep r rs

instance : IsTotal IpRange rangeLe :=
  ⟨fun r1 r2 => by
    unfold rangeLe compare_ip_address_ranges
    omega⟩

instance : IsTrans IpRange rangeLe :=
  ⟨fun r1 r2 r3 => by
    unfold rangeLe compare_ip_address_ranges
    omega⟩

deriving instance DecidableEq for Except

/-! Basic facts about the string model. -/

theorem splitOnChar_of_not_mem {sep : Char} {s : PyStr} (h : sep ∉ s) :
    splitOnChar sep s = [s] := by
  induction s with
  | nil => rfl
  | cons c cs ih =>
    simp only [List.mem_cons, not_or] at h
    have hc : ¬ c = sep := fun e => h.1 e.symm
    simp only [splitOnChar, if_neg hc, ih h.2]

theorem splitOnChar_append {sep : Char} {w : PyStr} (rest : PyStr) (h : sep ∉ w) :
    splitOnChar sep (w ++ sep :: rest) = w :: splitOnChar sep rest := by
  induction w with
  | nil => simp [splitOnChar]
  | cons c cs ih =>
    simp only [List.mem_cons, not_or] at h
    have hc : ¬ c = sep := fun e => h.1 e.symm
    simp only [List.cons_append, splitOnChar, if_neg hc, List.append_eq]
    rw [ih h.2]

set_option maxRecDepth 100000 in
theorem natStr_table :
    ∀ n, n < 256 → parseNatDigits (natStr n) = some n ∧
      '.' ∉ natStr n ∧ '/' ∉ natStr n ∧ pyInt (natStr n) = some (n : Int) := by
  decide

theorem splitOnChar_quadStr {w x y z : Nat} (hw : w < 256) (hx : x < 256)
    (hy : y < 256) (hz : z < 256) :
    splitOnChar '.' (quadStr w x y z) = [natStr w, natStr x, natStr y, natStr z] := by
  unfold quadStr
  rw [splitOnChar_append _ (natStr_table w hw).2.1,
      splitOnChar_append _ (natStr_table x hx).2.1,
      splitOnChar_append _ (natStr_table y hy).2.1,
      splitOnChar_of_not_mem (natStr_table z hz).2.1]

theorem get_value_quadStr {w x y z : Nat} (hw : w < 256) (hx : x < 256)
    (hy : y < 256) (hz : z < 256) :
    get_value (quadStr w x y z) = quadVal w x y z := by
  unfold get_value
  rw [splitOnChar_quadStr hw hx hy hz]
  have hr : List.range 4 = [0, 1, 2, 3] := rfl
  rw [hr]
  simp only [List.reverse_cons, List.reverse_nil, List.nil_append, List.cons_append,
    List.foldl_cons, List.foldl_nil, List.getD_cons_zero, List.getD_cons_succ]
  rw [(natStr_table w hw).1, (natStr_table x hx).1, (natStr_table y hy).1,
    (natStr_table z hz).1]
  simp only [Option.getD_some, show (1 <<< (0 <<< 3)) = 1 from rfl,
    show (1 <<< (1 <<< 3)) = 256 from rfl, show (1 <<< (2 <<< 3)) = 65536 from rfl,
    show (1 <<< (3 <<< 3)) = 16777216 from rfl]
  unfold quadVal
  omega

theorem get_value_quad_lt {w x y z : Nat} (hw : w < 256) (hx : x < 256)
    (hy : y < 256) (hz : z < 256) :
    get_value (quadStr w x y z) < 2 ^ 32 := by
  rw [get_value_quadStr hw hx hy hz]
  unfold quadVal
  omega

/-! Bit-extraction facts used by value_to_ip. -/

theorem and_shiftLeft_comm (v m k : Nat) : v &&& (m <<< k) = ((v >>> k) &&& m) <<< k := by
  apply Nat.eq_of_testBit_eq
  intro j
  simp only [Nat.testBit_and, Nat.testBit_shiftLeft, Nat.testBit_shiftRight]
  by_cases h : k ≤ j
  · have hj : k + (j - k) = j := by omega
    simp [ge_iff_le, h, hj, Bool.and_left_comm, Bool.and_comm, Bool.and_assoc]
  · simp [ge_iff_le, h]

theorem and_255_shl (v k : Nat) : (v &&& (255 <<< k)) / (1 <<< k) = v / 2 ^ k % 256 := by
  rw [and_shiftLeft_comm]
  have h255 : (255 : Nat) = 2 ^ 8 - 1 := rfl
  rw [h255, Nat.and_pow_two_sub_one_eq_mod, Nat.shiftLeft_eq, Nat.shiftLeft_eq,
    Nat.shiftRight_eq_div_pow, Nat.one_mul]
  exact Nat.mul_div_cancel _ (Nat.pos_pow_of_pos k (by omega))

theorem value_to_ip_eq (v : Nat) :
    value_to_ip v =
      quadStr (v / 2 ^ 24 % 256) (v / 2 ^ 16 % 256) (v / 2 ^ 8 % 256) (v % 256) := by
  unfold value_to_ip
  have hv1 : (List.range 8).foldl (fun acc i => acc + (1 <<< i)) 0 = 255 := rfl
  rw [hv1]
  simp only [List.map_cons, List.map_nil, List.reverse_cons, List.reverse_nil,
    List.nil_append, List.cons_append]
  rw [and_255_shl, and_255_shl, and_255_shl, and_255_shl]
  simp [joinOn, quadStr]

theorem get_value_value_to_ip (v : Nat) : get_value (value_to_ip v) = v % 2 ^ 32 := by
  rw [value_to_ip_eq, get_value_quadStr (Nat.mod_lt _ (by omega)) (Nat.mod_lt _ (by omega))
    (Nat.mod_lt _ (by omega)) (Nat.mod_lt _ (by omega))]
  unfold quadVal
  simp only [show (2:Nat)^24 = 16777216 from rfl, show (2:Nat)^16 = 65536 from rfl,
    show (2:Nat)^8 = 256 from rfl, show (2:Nat)^32 = 4294967296 from rfl]
  omega

theorem value_to_ip_mod (v : Nat) : value_to_ip v = value_to_ip (v % 2 ^ 32) := by
  rw [value_to_ip_eq, value_to_ip_eq (v % 2 ^ 32)]
  simp only [show (2:Nat)^24 = 16777216 from rfl, show (2:Nat)^16 = 65536 from rfl,
    show (2:Nat)^8 = 256 from rfl, show (2:Nat)^32 = 4294967296 from rfl]
  have h24 : v / 16777216 % 256 = v % 4294967296 / 16777216 % 256 := by omega
  have h16 : v / 65536 % 256 = v % 4294967296 / 65536 % 256 := by omega
  have h8 : v / 256 % 256 = v % 4294967296 / 256 % 256 := by omega
  have h0 : v % 256 = v % 4294967296 % 256 := by omega
  rw [h24, h16, h8, h0]

theorem value_to_ip_of_lt {v : Nat} (hv : v < 2 ^ 32) : get_value (value_to_ip v) = v := by
  rw [get_value_value_to_ip, Nat.mod_eq_of_lt hv]

/-- C7: round-trip laws of the address codec: valueToAddress inverts
addressToValue on every syntactically valid dotted quad, and
addressToValue inverts valueToAddress on every value in [0, 2^32 - 1]. -/
theorem C7_round_trip :
    (∀ w x y z : Nat, w < 256 → x < 256 → y < 256 → z < 256 →
       value_to_ip (get_value (quadStr w x y z)) = quadStr w x y z) ∧
    (∀ v : Nat, v ≤ 2 ^ 32 - 1 → get_value (value_to_ip v) = v) := by
  constructor
  · intro w x y z hw hx hy hz
    rw [get_value_quadStr hw hx hy hz, value_to_ip_eq]
    unfold quadVal
    have e24 : ((w * 256 + x) * 256 + y) * 256 + z = w * 16777216 + x * 65536 + y * 256 + z := by
      ring
    rw [e24]
    simp only [show (2:Nat)^24 = 16777216 from rfl, show (2:Nat)^16 = 65536 from rfl,
      show (2:Nat)^8 = 256 from rfl]
    have hw2 : (w * 16777216 + x * 65536 + y * 256 + z) / 16777216 % 256 = w := by omega
    have hx2 : (w * 16777216 + x * 65536 + y * 256 + z) / 65536 % 256 = x := by omega
    have hy2 : (w * 16777216 + x * 65536 + y * 256 + z) / 256 % 256 = y := by omega
    have hz2 : (w * 16777216 + x * 65536 + y * 256 + z) % 256 = z := by omega
    rw [hw2, hx2, hy2, hz2]
  · intro v hv
    rw [get_value_value_to_ip]
    omega

theorem C7_round_trip_witness :
    ((1:Nat) < 256 ∧ (2:Nat) < 256 ∧ (3:Nat) < 256 ∧ (4:Nat) < 256 ∧
      (3232235776:Nat) ≤ 2 ^ 32 - 1) ∧
    value_to_ip (get_value (quadStr 1 2 3 4)) = quadStr 1 2 3 4 ∧
    get_value (value_to_ip 3232235776) = 3232235776 :=
  ⟨by decide,
   C7_round_trip.1 1 2 3 4 (by decide) (by decide) (by decide) (by decide),
   C7_round_trip.2 3232235776 (by decide)⟩

/-- C10: value_to_ip is total on all natural numbers: it always returns a
dotted quad with octets in 0-255, it only depends on the value mod 2^32,
and get_value recovers exactly the value mod 2^32. -/
theorem C10_value_to_ip_total :
    ∀ v : Nat,
      (∃ w x y z, w < 256 ∧ x < 256 ∧ y < 256 ∧ z < 256 ∧
        value_to_ip v = quadStr w x y z) ∧
      value_to_ip v = value_to_ip (v % 2 ^ 32) ∧
      get_value (value_to_ip v) = v % 2 ^ 32 := by
  intro v
  exact ⟨⟨_, _, _, _, Nat.mod_lt _ (by omega), Nat.mod_lt _ (by omega),
    Nat.mod_lt _ (by omega), Nat.mod_lt _ (by omega), value_to_ip_eq v⟩,
    value_to_ip_mod v, get_value_value_to_ip v⟩

/-! The integer range and mask-sum computations of CidrBlock. -/

theorem pyRange_nil {a b : Int} (h : b ≤ a) : pyRange a b = [] := by
  unfold pyRange
  have : (b - a).toNat = 0 := by omega
  rw [this]
  rfl

theorem pyRange_cons {a b : Int} (h : a < b) : pyRange a b = a :: pyRange (a + 1) b := by
  unfold pyRange
  have hn : (b - a).toNat = (b - (a + 1)).toNat + 1 := by omega
  rw [hn, List.range_succ_eq_map, List.map_cons, List.map_map]
  congr 1
  · simp
  · refine List.map_congr_left fun k _ => ?_
    simp only [Function.comp_apply]
    push_cast
    ring

theorem pyRange_foldlM_shift (n : Nat) :
    ∀ (a b : Int) (acc : Nat), (b - a).toNat = n → 0 ≤ a →
      ((pyRange a b).foldlM (fun (acc : Nat) (i : Int) =>
          if i < 0 then Except.error PyErr.valueError
          else Except.ok (acc + (1 <<< i.toNat))) acc : Except PyErr Nat)
        = .ok (acc + (2 ^ b.toNat - 2 ^ a.toNat)) := by
  induction n with
  | zero =>
    intro a b acc hn ha
    rw [pyRange_nil (by omega)]
    have hb : 2 ^ b.toNat ≤ 2 ^ a.toNat := Nat.pow_le_pow_right (by omega) (by omega)
    simp only [List.foldlM_nil]
    have : 2 ^ b.toNat - 2 ^ a.toNat = 0 := by omega
    rw [this, Nat.add_zero]
    rfl
  | succ n ih =>
    intro a b acc hn ha
    rw [pyRange_cons (by omega), List.foldlM_cons, if_neg (by omega)]
    have hstep : ((Except.ok (acc + (1 <<< a.toNat)) : Except PyErr Nat) >>= fun s =>
        (pyRange (a + 1) b).foldlM (fun (acc : Nat) (i : Int) =>
          if i < 0 then Except.error PyErr.valueError
          else Except.ok (acc + (1 <<< i.toNat))) s)
        = (pyRange (a + 1) b).foldlM (fun (acc : Nat) (i : Int) =>
          if i < 0 then Except.error PyErr.valueError
          else Except.ok (acc + (1 <<< i.toNat))) (acc + (1 <<< a.toNat)) := rfl
    rw [hstep, ih (a + 1) b _ (by omega) (by omega)]
    have h1 : (1 : Nat) <<< a.toNat = 2 ^ a.toNat := by rw [Nat.shiftLeft_eq, Nat.one_mul]
    have h2 : (a + 1).toNat = a.toNat + 1 := by omega
    have h3 : (2 : Nat) ^ (a.toNat + 1) = 2 * 2 ^ a.toNat := by ring
    have h4 : 2 ^ (a.toNat + 1) ≤ 2 ^ b.toNat := Nat.pow_le_pow_right (by omega) (by omega)
    rw [h1, h2]
    congr 1
    omega

theorem pyRange_foldl_shift (n : Nat) :
    ∀ (a b : Int) (acc : Nat), (b - a).toNat = n → 0 ≤ a →
      (pyRange a b).foldl (fun (acc : Nat) (i : Int) => acc + (1 <<< i.toNat)) acc
        = acc + (2 ^ b.toNat - 2 ^ a.toNat) := by
  induction n with
  | zero =>
    intro a b acc hn ha
    rw [pyRange_nil (by omega)]
    have hb : 2 ^ b.toNat ≤ 2 ^ a.toNat := Nat.pow_le_pow_right (by omega) (by omega)
    simp only [List.foldl_nil]
    omega
  | succ n ih =>
    intro a b acc hn ha
    rw [pyRange_cons (by omega), List.foldl_cons, ih (a + 1) b _ (by omega) (by omega)]
    have h1 : (1 : Nat) <<< a.toNat = 2 ^ a.toNat := by rw [Nat.shiftLeft_eq, Nat.one_mul]
    have h2 : (a + 1).toNat = a.toNat + 1 := by omega
    have h3 : (2 : Nat) ^ (a.toNat + 1) = 2 * 2 ^ a.toNat := by ring
    have h4 : 2 ^ (a.toNat + 1) ≤ 2 ^ b.toNat := Nat.pow_le_pow_right (by omega) (by omega)
    rw [h1, h2]
    omega

theorem shiftSum_ok {m : Int} (h0 : 0 ≤ m) (h32 : m ≤ 32) :
    shiftSum (pyRange (32 - m) 32) = .ok (2 ^ 32 - 2 ^ (32 - m.toNat)) := by
  unfold shiftSum
  rw [pyRange_foldlM_shift ((32 - (32 - m)).toNat) (32 - m) 32 0 rfl (by omega)]
  have h1 : ((32 : Int) - m).toNat = 32 - m.toNat := by omega
  have h2 : ((32 : Int)).toNat = 32 := rfl
  rw [h1, h2, Nat.zero_add]

theorem shiftSum_err {a b : Int} (ha : a < 0) (hb : a < b) :
    shiftSum (pyRange a b) = .error .valueError := by
  unfold shiftSum
  rw [pyRange_cons hb, List.foldlM_cons, if_pos ha]
  rfl

theorem get_min_value_ok {p : PyStr} {m : Int} (h0 : 0 ≤ m) (h32 : m ≤ 32) :
    get_min_value p m = .ok (get_value p &&& (2 ^ 32 - 2 ^ (32 - m.toNat))) := by
  unfold get_min_value
  rw [shiftSum_ok h0 h32]
  rfl

theorem get_min_value_err {p : PyStr} {m : Int} (h : 32 < m) :
    get_min_value p m = .error .valueError := by
  unfold get_min_value
  rw [shiftSum_err (by omega) (by omega)]
  rfl

theorem get_min_value_neg {p : PyStr} {m : Int} (h : m < 0) :
    get_min_value p m = .ok 0 := by
  unfold get_min_value shiftSum
  rw [pyRange_nil (by omega)]
  simp only [List.foldlM_nil]
  show Except.ok (get_value p &&& 0) = Except.ok 0
  rw [Nat.and_zero]

theorem get_max_value_eq (mv : Nat) (m : Int) :
    get_max_value mv m = mv + (2 ^ (32 - m).toNat - 1) := by
  unfold get_max_value
  rw [pyRange_foldl_shift ((32 - m - 0).toNat) 0 (32 - m) mv (by omega) le_rfl]
  have h2 : ((0 : Int)).toNat = 0 := rfl
  rw [h2]
  rfl

theorem slash_not_mem_quadStr {w x y z : Nat} (hw : w < 256) (hx : x < 256)
    (hy : y < 256) (hz : z < 256) : '/' ∉ quadStr w x y z := by
  unfold quadStr
  intro hmem
  simp only [List.mem_append, List.mem_cons] at hmem
  rcases hmem with h | h | h | h | h | h | h
  · exact (natStr_table w hw).2.2.1 h
  · exact absurd h (by decide)
  · exact (natStr_table x hx).2.2.1 h
  · exact absurd h (by decide)
  · exact (natStr_table y hy).2.2.1 h
  · exact absurd h (by decide)
  · exact (natStr_table z hz).2.2.1 h

theorem splitSlash_cidr {w x y z m : Nat} (hw : w < 256) (hx : x < 256)
    (hy : y < 256) (hz : z < 256) (hm : m < 256) :
    splitOnChar '/' (quadStr w x y z ++ '/' :: natStr m) =
      [quadStr w x y z, natStr m] := by
  rw [splitOnChar_append _ (slash_not_mem_quadStr hw hx hy hz),
    splitOnChar_of_not_mem (natStr_table m hm).2.2.1]

theorem toRange_canonical {w x y z m : Nat} (hw : w < 256) (hx : x < 256)
    (hy : y < 256) (hz : z < 256) (hm : m ≤ 32) :
    ip_cidr_to_ip_value_range (quadStr w x y z ++ '/' :: natStr m) =
      .ok (quadVal w x y z &&& (2 ^ 32 - 2 ^ (32 - m)),
           (quadVal w x y z &&& (2 ^ 32 - 2 ^ (32 - m))) + (2 ^ (32 - m) - 1)) := by
  unfold ip_cidr_to_ip_value_range split2
  rw [splitSlash_cidr hw hx hy hz (by omega)]
  simp only [Bind.bind, Except.bind]
  rw [(natStr_table m (by omega)).2.2.2]
  simp only [optE]
  rw [get_min_value_ok (by omega) (by omega)]
  simp only [get_value_quadStr hw hx hy hz]
  rw [get_max_value_eq]
  have h1 : ((m : Int)).toNat = m := rfl
  have h2 : ((32 : Int) - (m : Int)).toNat = 32 - m := by omega
  rw [h1, h2]
  rfl

/-- C9 (amended): toRange raises for every mask that parses to an integer
above 32 (the negative shift in the mask sum), and on canonical CIDRs with
mask in [0, 32] it returns a pair satisfying 0 <= min <= max <= 2^32 - 1.
Masks that parse to a negative integer are accepted silently and can
violate the upper invariant, which corrects the claim. -/
theorem C9_toRange_amended :
    (∀ (s p ms : PyStr) (k : Int), splitOnChar '/' s = [p, ms] → pyInt ms = some k →
       32 < k → ip_cidr_to_ip_value_range s = .error PyErr.valueError) ∧
    (∀ w x y z m : Nat, w < 256 → x < 256 → y < 256 → z < 256 → m ≤ 32 →
       ∃ mn mx, ip_cidr_to_ip_value_range (quadStr w x y z ++ '/' :: natStr m) =
           .ok (mn, mx) ∧ mn ≤ mx ∧ mx ≤ 2 ^ 32 - 1) := by
  constructor
  · intro s p ms k hsplit hparse hk
    unfold ip_cidr_to_ip_value_range split2
    rw [hsplit]
    simp only [Bind.bind, Except.bind]
    rw [hparse]
    simp only [optE]
    rw [get_min_value_err hk]
  · intro w x y z m hw hx hy hz hm
    refine ⟨_, _, toRange_canonical hw hx hy hz hm, ?_, ?_⟩
    · exact Nat.le_add_right _ _
    · have h1 : quadVal w x y z &&& (2 ^ 32 - 2 ^ (32 - m)) ≤ 2 ^ 32 - 2 ^ (32 - m) :=
        Nat.and_le_right
      have h2 : (1 : Nat) ≤ 2 ^ (32 - m) := Nat.one_le_two_pow
      have h3 : (2 : Nat) ^ (32 - m) ≤ 2 ^ 32 := Nat.pow_le_pow_right (by omega) (by omega)
      omega

theorem C9_toRange_amended_witness :
    (splitOnChar '/' "1.2.3.4/33".toList = ["1.2.3.4".toList, "33".toList] ∧
      pyInt "33".toList = some 33 ∧ (32 : Int) < 33 ∧
      (10 : Nat) < 256 ∧ (0 : Nat) < 256 ∧ (8 : Nat) ≤ 32) ∧
    ip_cidr_to_ip_value_range "1.2.3.4/33".toList = .error PyErr.valueError ∧
    (∃ mn mx, ip_cidr_to_ip_value_range (quadStr 10 0 0 0 ++ '/' :: natStr 8) =
        .ok (mn, mx) ∧ mn ≤ mx ∧ mx ≤ 2 ^ 32 - 1) :=
  ⟨by decide,
   C9_toRange_amended.1 "1.2.3.4/33".toList "1.2.3.4".toList "33".toList 33
     (by decide) (by decide) (by decide),
   C9_toRange_amended.2 10 0 0 0 8 (by decide) (by decide) (by decide) (by decide)
     (by decide)⟩

/-- C9 (counterexample): a CIDR string whose mask part is the numeral -1,
outside [0, 32], makes toRange raise nothing: it returns the pair
(0, 2^33 - 1), whose upper bound also breaks the 2^32 - 1 invariant. -/
theorem C9_counterexample :
    ip_cidr_to_ip_value_range "0.0.0.0/-1".toList = .ok (0, 8589934591) ∧
    ¬ (8589934591 : Nat) ≤ 2 ^ 32 - 1 := by
  exact ⟨by decide, by decide⟩

/-- C2 (counterexample): consolidate(["192.168.0.0/24","192.168.1.0/24",
"10.0.0.0/8"]) returns a list of three blocks, not exactly two: the two
adjacent /24 blocks touch but do not overlap, so the sweep keeps them
separate. -/
theorem C2_counterexample :
    consolidate_ip_cidrs
        ["192.168.0.0/24".toList, "192.168.1.0/24".toList, "10.0.0.0/8".toList] =
      .ok ["10.0.0.0/8".toList, "192.168.0.0/24".toList, "192.168.1.0/24".toList] ∧
    (["10.0.0.0/8".toList, "192.168.0.0/24".toList, "192.168.1.0/24".toList] :
        List PyStr).length ≠ 2 := by
  exact ⟨by decide, by decide⟩

/-- C2 (amended): consolidate of the three listed CIDRs yields exactly the
three blocks 10.0.0.0/8, 192.168.0.0/24 and 192.168.1.0/24: the two
adjacent /24 blocks stay separate (no /23 appears) because the merge
combines only genuinely overlapping ranges. -/
theorem C2_consolidate_example :
    consolidate_ip_cidrs
        ["192.168.0.0/24".toList, "192.168.1.0/24".toList, "10.0.0.0/8".toList] =
      .ok ["10.0.0.0/8".toList, "192.168.0.0/24".toList, "192.168.1.0/24".toList] := by
  decide

/-- C4 (counterexample): the first stated equality fails: the minimal
covering CIDR of 192.168.43.0, 192.168.44.0, 192.168.45.0 computed by the
code is 192.168.40.0/21, not 192.168.32.0/19. -/
theorem C4_counterexample :
    get_ip_cidr_from_ips
        ["192.168.43.0".toList, "192.168.44.0".toList, "192.168.45.0".toList] =
      .ok "192.168.40.0/21".toList ∧
    "192.168.40.0/21".toList ≠ "192.168.32.0/19".toList := by
  exact ⟨by decide, by decide⟩

/-- C4 (amended): coveringCidr of the three listed addresses equals
192.168.40.0/21 (the tightest shared-prefix block), while the second and
third stated equalities hold as claimed. -/
theorem C4_covering_examples :
    get_ip_cidr_from_ips
        ["192.168.43.0".toList, "192.168.44.0".toList, "192.168.45.0".toList] =
      .ok "192.168.40.0/21".toList ∧
    get_ip_cidr_from_ips ["1.2.3.4".toList, "1.2.3.4".toList] = .ok "1.2.3.4/32".toList ∧
    get_ip_cidr_from_ips ["0.0.0.0".toList, "224.255.255.255".toList] =
      .ok "0.0.0.0/0".toList := by
  exact ⟨by decide, by decide, by decide⟩

/-- C8 (counterexample): consolidate on the empty collection does not
raise: it returns the empty sequence. -/
theorem C8_counterexample : consolidate_ip_cidrs [] = .ok [] := rfl

/-- C8 (amended): coveringCidr raises on an empty collection (the IndexError
of ip_addrs[0], the EmptyInputError of the specification), but consolidate
on an empty collection returns the empty list without raising. -/
theorem C8_empty_behavior :
    get_ip_cidr_from_ips [] = .error PyErr.indexError ∧
    consolidate_ip_cidrs [] = .ok [] :=
  ⟨rfl, rfl⟩

/-! The interval sweep of consolidate_ip_ranges. -/

theorem ip_ranges_overlap_iff {r1 r2 : IpRange} :
    ip_ranges_overlap r1 r2 = true ↔ rlo r2 ≤ rhi r1 ∧ rlo r1 ≤ rhi r2 := by
  unfold ip_ranges_overlap rlo rhi
  simp [ge_iff_le]

theorem rlo_combine (r1 r2 : IpRange) :
    rlo (combine_ip_ranges r1 r2) = min (rlo r1) (rlo r2) := by
  show get_value (if get_value r1.1 < get_value r2.1 then r1.1 else r2.1) =
    min (get_value r1.1) (get_value r2.1)
  split
  · next h => omega
  · next h => omega

theorem rhi_combine (r1 r2 : IpRange) :
    rhi (combine_ip_ranges r1 r2) = max (rhi r1) (rhi r2) := by
  show get_value (if get_value r1.2 > get_value r2.2 then r1.2 else r2.2) =
    max (get_value r1.2) (get_value r2.2)
  split
  · next h => omega
  · next h => omega

theorem foldl_consolidateStep (l : List IpRange) :
    ∀ (front : List IpRange) (last : IpRange),
      l.foldl consolidateStep (front ++ [last]) = front ++ sweep last l := by
  induction l with
  | nil =>
    intro front last
    simp [sweep]
  | cons r rs ih =>
    intro front last
    rw [List.foldl_cons]
    have hstep : consolidateStep (front ++ [last]) r =
        if ip_ranges_overlap r last then front ++ [combine_ip_ranges r last]
        else (front ++ [last]) ++ [r] := by
      unfold consolidateStep
      rw [List.getLast?_concat]
      show (if ip_ranges_overlap r last = true then
          (front ++ [last]).dropLast ++ [combine_ip_ranges r last]
        else front ++ [last] ++ [r]) = _
      rw [List.dropLast_concat]
    by_cases hov : ip_ranges_overlap r last
    · rw [hstep, if_pos hov, ih front (combine_ip_ranges r last)]
      show _ = front ++ sweep last (r :: rs)
      rw [sweep, if_pos hov]
    · rw [hstep, if_neg hov, ih (front ++ [last]) r]
      show _ = front ++ sweep last (r :: rs)
      rw [sweep, if_neg hov]
      simp

theorem consolidate_ip_ranges_eq_sweep (ip_ranges : List IpRange) :
    consolidate_ip_ranges ip_ranges =
      match sort_ip_address_ranges ip_ranges with
      | [] => []
      | x :: xs => sweep x xs := by
  unfold consolidate_ip_ranges
  cases h : sort_ip_address_ranges ip_ranges with
  | nil => rfl
  | cons x xs =>
    rw [List.foldl_cons]
    have h1 : consolidateStep [] x = [] ++ [x] := rfl
    rw [h1, foldl_consolidateStep xs [] x]
    rfl

theorem sweep_spec :
    ∀ (rs : List IpRange) (last : IpRange),
      rlo last ≤ rhi last →
      (∀ r ∈ rs, rlo r ≤ rhi r) →
      rs.Pairwise (fun a b => rlo a ≤ rlo b) →
      (∀ r ∈ rs, rlo last ≤ rlo r) →
      (∀ r ∈ sweep last rs, rlo r ≤ rhi r) ∧
      (sweep last rs).Pairwise (fun a b => rhi a < rlo b) ∧
      (∀ r ∈ sweep last rs, rlo last ≤ rlo r) ∧
      (∀ x : Nat, (∃ r ∈ sweep last rs, inRange x r) ↔
        (inRange x last ∨ ∃ r ∈ rs, inRange x r)) ∧
      (∀ r ∈ rs, ∃ r2 ∈ sweep last rs, rlo r2 ≤ rlo r ∧ rhi r ≤ rhi r2) ∧
      (∃ r2 ∈ sweep last rs, rlo r2 ≤ rlo last ∧ rhi last ≤ rhi r2) := by
  intro rs
  induction rs with
  | nil =>
    intro last hwl _ _ _
    refine ⟨?_, ?_, ?_, ?_, ?_, ?_⟩ <;> simp [sweep]
    · exact hwl
  | cons r rs ih =>
    intro last hwl hwf hsort hge
    have hwr : rlo r ≤ rhi r := hwf r (List.mem_cons_self r rs)
    have hwfs : ∀ t ∈ rs, rlo t ≤ rhi t := fun t ht => hwf t (List.mem_cons_of_mem _ ht)
    obtain ⟨hr_le, hsort2⟩ := List.pairwise_cons.mp hsort
    have hger : rlo last ≤ rlo r := hge r (List.mem_cons_self r rs)
    by_cases hov : ip_ranges_overlap r last = true
    · have hov2 := ip_ranges_overlap_iff.mp hov
      have hc_lo : rlo (combine_ip_ranges r last) = min (rlo r) (rlo last) :=
        rlo_combine r last
      have hc_hi : rhi (combine_ip_ranges r last) = max (rhi r) (rhi last) :=
        rhi_combine r last
      have hwc : rlo (combine_ip_ranges r last) ≤ rhi (combine_ip_ranges r last) := by
        omega
      have hgec : ∀ t ∈ rs, rlo (combine_ip_ranges r last) ≤ rlo t := by
        intro t ht
        have := hr_le t ht
        omega
      obtain ⟨ih1, ih2, ih3, ih4, ih5, ih6⟩ := ih (combine_ip_ranges r last) hwc hwfs hsort2 hgec
      rw [sweep, if_pos hov]
      refine ⟨ih1, ih2, ?_, ?_, ?_, ?_⟩
      · intro t ht
        have := ih3 t ht
        omega
      · intro x
        have hcx : inRange x (combine_ip_ranges r last) ↔
            (inRange x last ∨ inRange x r) := by
          unfold inRange
          omega
        rw [ih4 x, hcx]
        simp only [List.mem_cons]
        constructor
        · rintro ((h1 | h1) | ⟨t, ht, h2⟩)
          · exact Or.inl h1
          · exact Or.inr ⟨r, Or.inl rfl, h1⟩
          · exact Or.inr ⟨t, Or.inr ht, h2⟩
        · rintro (h1 | ⟨t, (rfl | ht), h2⟩)
          · exact Or.inl (Or.inl h1)
          · exact Or.inl (Or.inr h2)
          · exact Or.inr ⟨t, ht, h2⟩
      · intro t ht
        rcases List.mem_cons.mp ht with rfl | ht2
        · obtain ⟨r2, hr2, h1, h2⟩ := ih6
          exact ⟨r2, hr2, by omega, by omega⟩
        · exact ih5 t ht2
      · obtain ⟨r2, hr2, h1, h2⟩ := ih6
        exact ⟨r2, hr2, by omega, by omega⟩
    · have hnov : ¬(rlo last ≤ rhi r ∧ rlo r ≤ rhi last) := fun hc =>
        hov (ip_ranges_overlap_iff.mpr hc)
      have hlt : rhi last < rlo r := by
        rcases Nat.lt_or_ge (rhi last) (rlo r) with h | h
        · exact h
        · exact absurd ⟨by omega, by omega⟩ hnov
      obtain ⟨ih1, ih2, ih3, ih4, ih5, ih6⟩ := ih r hwr hwfs hsort2 hr_le
      rw [sweep, if_neg hov]
      refine ⟨?_, ?_, ?_, ?_, ?_, ?_⟩
      · intro t ht
        rcases List.mem_cons.mp ht with rfl | ht2
        · exact hwl
        · exact ih1 t ht2
      · rw [List.pairwise_cons]
        exact ⟨fun t ht => lt_of_lt_of_le hlt (ih3 t ht), ih2⟩
      · intro t ht
        rcases List.mem_cons.mp ht with rfl | ht2
        · exact le_refl _
        · have := ih3 t ht2
          omega
      · intro x
        simp only [List.mem_cons]
        constructor
        · rintro ⟨t, (rfl | ht), h2⟩
          · exact Or.inl h2
          · rcases (ih4 x).mp ⟨t, ht, h2⟩ with h | ⟨u, hu, h3⟩
            · exact Or.inr ⟨r, Or.inl rfl, h⟩
            · exact Or.inr ⟨u, Or.inr hu, h3⟩
        · rintro (h1 | ⟨t, (rfl | ht), h2⟩)
          · exact ⟨last, Or.inl rfl, h1⟩
          · obtain ⟨u, hu, h3⟩ := (ih4 x).mpr (Or.inl h2)
            exact ⟨u, Or.inr hu, h3⟩
          · obtain ⟨u, hu, h3⟩ := (ih4 x).mpr (Or.inr ⟨t, ht, h2⟩)
            exact ⟨u, Or.inr hu, h3⟩
      · intro t ht
        rcases List.mem_cons.mp ht with rfl | ht2
        · obtain ⟨r2, hr2, h1, h2⟩ := ih6
          exact ⟨r2, List.mem_cons_of_mem _ hr2, h1, h2⟩
        · obtain ⟨r2, hr2, h1, h2⟩ := ih5 t ht2
          exact ⟨r2, List.mem_cons_of_mem _ hr2, h1, h2⟩
      · exact ⟨last, List.mem_cons_self _ _, le_refl _, le_refl _⟩

theorem sorted_ranges (R : List IpRange) :
    (sort_ip_address_ranges R).Pairwise fun a b => rlo a ≤ rlo b := by
  have hs : (sort_ip_address_ranges R).Pairwise rangeLe :=
    List.sorted_insertionSort rangeLe R
  refine hs.imp fun hab => ?_
  unfold rangeLe compare_ip_address_ranges at hab
  unfold rlo
  omega

theorem consolidate_spec (R : List IpRange) (hwf : ∀ r ∈ R, rlo r ≤ rhi r) :
    (∀ r ∈ consolidate_ip_ranges R, rlo r ≤ rhi r) ∧
    ((consolidate_ip_ranges R).Pairwise fun a b => rhi a < rlo b) ∧
    (∀ x : Nat, (∃ r ∈ R, inRange x r) ↔ ∃ r ∈ consolidate_ip_ranges R, inRange x r) ∧
    (∀ r ∈ R, ∃ r2 ∈ consolidate_ip_ranges R, rlo r2 ≤ rlo r ∧ rhi r ≤ rhi r2) := by
  have hperm : (sort_ip_address_ranges R).Perm R := List.perm_insertionSort rangeLe R
  have hsorted := sorted_ranges R
  rw [consolidate_ip_ranges_eq_sweep]
  cases hs : sort_ip_address_ranges R with
  | nil =>
    rw [hs] at hperm
    have hR : R = [] := hperm.symm.eq_nil
    subst hR
    simp
  | cons x xs =>
    rw [hs] at hperm hsorted
    obtain ⟨hx_le, hsort2⟩ := List.pairwise_cons.mp hsorted
    have hmem : ∀ r : IpRange, r ∈ R ↔ r ∈ x :: xs := fun r => hperm.mem_iff.symm
    have hwx : rlo x ≤ rhi x := hwf x ((hmem x).mpr (List.mem_cons_self _ _))
    have hwxs : ∀ t ∈ xs, rlo t ≤ rhi t := fun t ht =>
      hwf t ((hmem t).mpr (List.mem_cons_of_mem _ ht))
    obtain ⟨s1, s2, s3, s4, s5, s6⟩ := sweep_spec xs x hwx hwxs hsort2 hx_le
    refine ⟨s1, s2, ?_, ?_⟩
    · intro v
      rw [s4 v]
      constructor
      · rintro ⟨r, hr, h2⟩
        rcases List.mem_cons.mp ((hmem r).mp hr) with rfl | ht
        · exact Or.inl h2
        · exact Or.inr ⟨r, ht, h2⟩
      · rintro (h | ⟨r, hr, h2⟩)
        · exact ⟨x, (hmem x).mpr (List.mem_cons_self _ _), h⟩
        · exact ⟨r, (hmem r).mpr (List.mem_cons_of_mem _ hr), h2⟩
    · intro r hr
      rcases List.mem_cons.mp ((hmem r).mp hr) with rfl | ht
      · exact s6
      · exact s5 r ht

/-- C1: the merge of every collection of well-formed ranges (lower value
at most upper value) is sorted ascending by the value of the lower bound,
no address value lies in two output ranges, the union of covered address
values equals the union covered by the input collection, and every input
range is fully contained in exactly one output range. -/
theorem C1_merge_correct (R : List IpRange) (hwf : ∀ r ∈ R, rlo r ≤ rhi r) :
    ((consolidate_ip_ranges R).Pairwise fun a b => rlo a ≤ rlo b) ∧
    ((consolidate_ip_ranges R).Pairwise fun a b => ∀ x : Nat,
       ¬(inRange x a ∧ inRange x b)) ∧
    (∀ x : Nat, (∃ r ∈ R, inRange x r) ↔ ∃ r ∈ consolidate_ip_ranges R, inRange x r) ∧
    (∀ r ∈ R, ∃ r2 ∈ consolidate_ip_ranges R,
       (rlo r2 ≤ rlo r ∧ rhi r ≤ rhi r2) ∧
       ∀ r3 ∈ consolidate_ip_ranges R, rlo r3 ≤ rlo r ∧ rhi r ≤ rhi r3 → r3 = r2) := by
  obtain ⟨h1, h2, h3, h4⟩ := consolidate_spec R hwf
  have hdisj : (consolidate_ip_ranges R).Pairwise fun a b => ∀ x : Nat,
      ¬(inRange x a ∧ inRange x b) :=
    h2.imp fun hab x hx => by
      unfold inRange at hx
      omega
  refine ⟨?_, hdisj, h3, ?_⟩
  · refine List.Pairwise.imp_of_mem (fun ha hb hab => ?_) h2
    have := h1 _ ha
    omega
  · intro r hr
    obtain ⟨r2, hr2, hc⟩ := h4 r hr
    refine ⟨r2, hr2, hc, ?_⟩
    intro r3 hr3 hc3
    by_contra hne
    have hS : Symmetric fun (a b : IpRange) => ∀ x : Nat,
        ¬(inRange x a ∧ inRange x b) :=
      fun a b hab x hx => hab x ⟨hx.2, hx.1⟩
    exact hdisj.forall hS hr3 hr2 hne (rlo r)
      ⟨⟨hc3.1, le_trans (hwf r hr) hc3.2⟩, ⟨hc.1, le_trans (hwf r hr) hc.2⟩⟩

theorem C1_merge_correct_witness :
    (∀ r ∈ [(("0.0.0.3").toList, ("0.0.0.5").toList),
            (("0.0.0.0").toList, ("0.0.0.4").toList)], rlo r ≤ rhi r) ∧
    (((consolidate_ip_ranges [(("0.0.0.3").toList, ("0.0.0.5").toList),
            (("0.0.0.0").toList, ("0.0.0.4").toList)]).Pairwise
        fun a b => rlo a ≤ rlo b) ∧
     ((consolidate_ip_ranges [(("0.0.0.3").toList, ("0.0.0.5").toList),
            (("0.0.0.0").toList, ("0.0.0.4").toList)]).Pairwise
        fun a b => ∀ x : Nat, ¬(inRange x a ∧ inRange x b)) ∧
     (∀ x : Nat, (∃ r ∈ [(("0.0.0.3").toList, ("0.0.0.5").toList),
            (("0.0.0.0").toList, ("0.0.0.4").toList)], inRange x r) ↔
        ∃ r ∈ consolidate_ip_ranges [(("0.0.0.3").toList, ("0.0.0.5").toList),
            (("0.0.0.0").toList, ("0.0.0.4").toList)], inRange x r) ∧
     (∀ r ∈ [(("0.0.0.3").toList, ("0.0.0.5").toList),
            (("0.0.0.0").toList, ("0.0.0.4").toList)],
        ∃ r2 ∈ consolidate_ip_ranges [(("0.0.0.3").toList, ("0.0.0.5").toList),
            (("0.0.0.0").toList, ("0.0.0.4").toList)],
          (rlo r2 ≤ rlo r ∧ rhi r ≤ rhi r2) ∧
          ∀ r3 ∈ consolidate_ip_ranges [(("0.0.0.3").toList, ("0.0.0.5").toList),
            (("0.0.0.0").toList, ("0.0.0.4").toList)],
            rlo r3 ≤ rlo r ∧ rhi r ≤ rhi r3 → r3 = r2)) :=
  ⟨by decide, C1_merge_correct _ (by decide)⟩

/-- C3 (counterexample): two well-formed input ranges that are adjacent
with zero gap are both returned unmerged, so the output has neighbouring
ranges with rhi + 1 = rlo, refuting that rhi + 1 < rlo always holds. -/
theorem C3_counterexample :
    consolidate_ip_ranges
        [(("0.0.0.0").toList, ("0.0.0.1").toList),
         (("0.0.0.2").toList, ("0.0.0.3").toList)] =
      [(("0.0.0.0").toList, ("0.0.0.1").toList),
       (("0.0.0.2").toList, ("0.0.0.3").toList)] ∧
    rhi (("0.0.0.0").toList, ("0.0.0.1").toList) + 1 =
      rlo (("0.0.0.2").toList, ("0.0.0.3").toList) :=
  ⟨by decide, by decide⟩

/-- C3 (amended): the outputs of the merge are pairwise strictly disjoint
in order (every earlier range ends below where every later one starts),
but ranges that touch with zero gap are not merged, so rhi + 1 < rlo does
not hold in general: only rhi < rlo does. -/
theorem C3_no_overlap_amended (R : List IpRange) (hwf : ∀ r ∈ R, rlo r ≤ rhi r) :
    (consolidate_ip_ranges R).Pairwise fun a b => rhi a < rlo b :=
  (consolidate_spec R hwf).2.1

theorem C3_no_overlap_amended_witness :
    (∀ r ∈ [(("0.0.0.0").toList, ("0.0.0.1").toList),
            (("0.0.0.2").toList, ("0.0.0.3").toList)], rlo r ≤ rhi r) ∧
    ((consolidate_ip_ranges [(("0.0.0.0").toList, ("0.0.0.1").toList),
            (("0.0.0.2").toList, ("0.0.0.3").toList)]).Pairwise
        fun a b => rhi a < rlo b) :=
  ⟨by decide, C3_no_overlap_amended _ (by decide)⟩

/-! The covering-CIDR computation. -/

theorem mem_pyProduct {α : Type} {l : List α} {a b : α} :
    (a, b) ∈ pyProduct l ↔ a ∈ l ∧ b ∈ l := by
  unfold pyProduct
  simp only [List.mem_flatMap, List.mem_map, Prod.mk.injEq]
  constructor
  · rintro ⟨x, hx, y, hy, rfl, rfl⟩
    exact ⟨hx, hy⟩
  · rintro ⟨ha, hb⟩
    exact ⟨a, ha, b, hb, rfl, rfl⟩

theorem all_pairs_eq_iff {values : List Nat} :
    ((pyProduct values).all fun p => p.1 == p.2) = true ↔
      ∀ v1 ∈ values, ∀ v2 ∈ values, v1 = v2 := by
  rw [List.all_eq_true]
  constructor
  · intro h v1 h1 v2 h2
    simpa using h (v1, v2) (mem_pyProduct.mpr ⟨h1, h2⟩)
  · rintro h ⟨a, b⟩ hp
    obtain ⟨h1, h2⟩ := mem_pyProduct.mp hp
    simpa using h a h1 b h2

theorem shl_one (i : Nat) : (1 : Nat) <<< i = 2 ^ i := by
  rw [Nat.shiftLeft_eq, Nat.one_mul]

theorem and_one_shl_eq_iff {v1 v2 i : Nat} :
    v1 &&& (1 <<< i) = v2 &&& (1 <<< i) ↔ Nat.testBit v1 i = Nat.testBit v2 i := by
  rw [shl_one, Nat.and_two_pow, Nat.and_two_pow]
  have hpos : 0 < 2 ^ i := Nat.pos_pow_of_pos _ (by omega)
  constructor
  · intro h
    have : (Nat.testBit v1 i).toNat = (Nat.testBit v2 i).toNat := by
      exact Nat.eq_of_mul_eq_mul_right hpos h
    cases hb1 : Nat.testBit v1 i <;> cases hb2 : Nat.testBit v2 i <;>
      simp [hb1, hb2] at this ⊢
  · intro h
    rw [h]

theorem differsAt_iff {values : List Nat} {i : Nat} :
    differsAt values i = true ↔
      ∃ v1 ∈ values, ∃ v2 ∈ values, Nat.testBit v1 i ≠ Nat.testBit v2 i := by
  unfold differsAt
  rw [List.any_eq_true]
  constructor
  · rintro ⟨⟨a, b⟩, hp, hq⟩
    obtain ⟨h1, h2⟩ := mem_pyProduct.mp hp
    refine ⟨a, h1, b, h2, ?_⟩
    intro he
    rw [← and_one_shl_eq_iff] at he
    simp [he] at hq
  · rintro ⟨v1, h1, v2, h2, hne⟩
    refine ⟨(v1, v2), mem_pyProduct.mpr ⟨h1, h2⟩, ?_⟩
    have : ¬ v1 &&& (1 <<< i) = v2 &&& (1 <<< i) := fun he =>
      hne (and_one_shl_eq_iff.mp he)
    simpa using this

theorem differsAt_false {values : List Nat} {i : Nat} (h : differsAt values i = false) :
    ∀ v1 ∈ values, ∀ v2 ∈ values, Nat.testBit v1 i = Nat.testBit v2 i := by
  intro v1 h1 v2 h2
  by_contra hne
  rw [← Bool.not_eq_true, differsAt_iff] at h
  exact h ⟨v1, h1, v2, h2, hne⟩

theorem coveringLoop_no_diff (values : List Nat) :
    ∀ (i : Nat) (mask : Nat), (∀ j, j < i → differsAt values j = false) →
      coveringLoop values i mask = (0, mask + (2 ^ i - 1)) := by
  intro i
  induction i with
  | zero =>
    intro mask _
    rw [coveringLoop]
    simp
  | succ i ih =>
    intro mask h
    rw [coveringLoop, if_neg (by simp [h i (by omega)]), ih _ (fun j hj => h j (by omega))]
    have h1 : (1 : Nat) <<< i = 2 ^ i := shl_one i
    have h2 : (2 : Nat) ^ (i + 1) = 2 * 2 ^ i := by ring
    have h3 : (1 : Nat) ≤ 2 ^ i := Nat.one_le_two_pow
    rw [h1]
    congr 1
    omega

theorem coveringLoop_diff (values : List Nat) (j : Nat)
    (hdiff : differsAt values j = true) :
    ∀ (i : Nat) (mask : Nat), j < i →
      (∀ k, j < k → k < i → differsAt values k = false) →
      coveringLoop values i mask = (j, mask + (2 ^ i - 2 ^ (j + 1))) := by
  intro i
  induction i with
  | zero =>
    intro mask h
    omega
  | succ i ih =>
    intro mask hji hmax
    by_cases hij : j = i
    · subst hij
      rw [coveringLoop, if_pos hdiff]
      have : (2 : Nat) ^ (j + 1) - 2 ^ (j + 1) = 0 := by omega
      rw [this, Nat.add_zero]
    · have hji2 : j < i := by omega
      rw [coveringLoop, if_neg (by simp [hmax i (by omega) (by omega)]),
        ih _ hji2 (fun k hk1 hk2 => hmax k hk1 (by omega))]
      have h1 : (1 : Nat) <<< i = 2 ^ i := shl_one i
      have h2 : (2 : Nat) ^ (i + 1) = 2 * 2 ^ i := by ring
      have h3 : (2 : Nat) ^ (j + 1) ≤ 2 ^ i := Nat.pow_le_pow_right (by omega) (by omega)
      rw [h1]
      congr 1
      omega

theorem and_highmask {v k : Nat} (hv : v < 2 ^ 32) (hk : k ≤ 32) :
    v &&& (2 ^ 32 - 2 ^ k) = v / 2 ^ k * 2 ^ k := by
  have hmask : (2 : Nat) ^ 32 - 2 ^ k = (2 ^ (32 - k) - 1) <<< k := by
    rw [Nat.shiftLeft_eq, Nat.sub_mul, ← pow_add, Nat.one_mul]
    congr 2
    omega
  rw [hmask, and_shiftLeft_comm, Nat.shiftRight_eq_div_pow,
    Nat.and_pow_two_sub_one_eq_mod, Nat.shiftLeft_eq]
  have hlt : v / 2 ^ k < 2 ^ (32 - k) := by
    apply Nat.div_lt_of_lt_mul
    rw [← pow_add]
    have : k + (32 - k) = 32 := by omega
    rw [this]
    exact hv
  rw [Nat.mod_eq_of_lt hlt]

theorem and_highmask_self {L k : Nat} (hL : L < 2 ^ 32) (hk : k ≤ 32)
    (hdvd : 2 ^ k ∣ L) : L &&& (2 ^ 32 - 2 ^ k) = L := by
  rw [and_highmask hL hk, Nat.div_mul_cancel hdvd]

theorem testBit_div_pow {v s j : Nat} (h : s ≤ j) :
    Nat.testBit v j = Nat.testBit (v / 2 ^ s) (j - s) := by
  rw [← Nat.shiftRight_eq_div_pow, Nat.testBit_shiftRight]
  congr 1
  omega

theorem div_eq_of_in_block {v b s : Nat} (h1 : b * 2 ^ s ≤ v)
    (h2 : v ≤ b * 2 ^ s + (2 ^ s - 1)) : v / 2 ^ s = b := by
  have hpos : 0 < 2 ^ s := Nat.pos_pow_of_pos _ (by omega)
  exact Nat.div_eq_of_lt_le h1 (by
    have : (b + 1) * 2 ^ s = b * 2 ^ s + 2 ^ s := by ring
    omega)

theorem div_pow_eq_of_bits_eq {v1 v2 k : Nat}
    (h : ∀ j, k ≤ j → Nat.testBit v1 j = Nat.testBit v2 j) :
    v1 / 2 ^ k = v2 / 2 ^ k := by
  have he : v1 >>> k = v2 >>> k := by
    apply Nat.eq_of_testBit_eq
    intro j
    rw [Nat.testBit_shiftRight, Nat.testBit_shiftRight]
    exact h (k + j) (by omega)
  rw [← Nat.shiftRight_eq_div_pow, ← Nat.shiftRight_eq_div_pow, he]

theorem value_to_ip_isQuad (v : Nat) : isQuad (value_to_ip v) :=
  ⟨_, _, _, _, Nat.mod_lt _ (by omega), Nat.mod_lt _ (by omega),
    Nat.mod_lt _ (by omega), Nat.mod_lt _ (by omega), value_to_ip_eq v⟩

theorem isQuad_lt {s : PyStr} (h : isQuad s) : get_value s < 2 ^ 32 := by
  obtain ⟨w, x, y, z, hw, hx, hy, hz, rfl⟩ := h
  exact get_value_quad_lt hw hx hy hz

theorem toRange_value_to_ip {L : Nat} (hL : L < 2 ^ 32) {m : Nat} (hm : m ≤ 32) :
    ip_cidr_to_ip_value_range (value_to_ip L ++ '/' :: natStr m) =
      .ok (L &&& (2 ^ 32 - 2 ^ (32 - m)),
           (L &&& (2 ^ 32 - 2 ^ (32 - m))) + (2 ^ (32 - m) - 1)) := by
  rw [value_to_ip_eq,
    toRange_canonical (Nat.mod_lt _ (by omega)) (Nat.mod_lt _ (by omega))
      (Nat.mod_lt _ (by omega)) (Nat.mod_lt _ (by omega)) hm]
  have hq : quadVal (L / 2 ^ 24 % 256) (L / 2 ^ 16 % 256) (L / 2 ^ 8 % 256) (L % 256)
      = L := by
    unfold quadVal
    simp only [show (2:Nat)^24 = 16777216 from rfl, show (2:Nat)^16 = 65536 from rfl,
      show (2:Nat)^8 = 256 from rfl]
    have h32 : L < 4294967296 := hL
    omega
  rw [hq]

theorem covering_all_equal {a : PyStr} {ips : List PyStr}
    (hall : ∀ s ∈ a :: ips, ∀ t ∈ a :: ips, get_value s = get_value t) :
    get_ip_cidr_from_ips (a :: ips) = .ok (a ++ '/' :: natStr 32) := by
  have hcond : ((pyProduct ((a :: ips).map get_value)).all fun p => p.1 == p.2) = true := by
    rw [all_pairs_eq_iff]
    intro v1 h1 v2 h2
    obtain ⟨s1, hs1, rfl⟩ := List.mem_map.mp h1
    obtain ⟨s2, hs2, rfl⟩ := List.mem_map.mp h2
    exact hall s1 hs1 s2 hs2
  simp only [get_ip_cidr_from_ips]
  rw [if_pos hcond]

theorem covering_not_all_equal {ips : List PyStr} (hne : ips ≠ [])
    (hlt : ∀ a ∈ ips, get_value a < 2 ^ 32)
    (hnall : ¬ ∀ s ∈ ips, ∀ t ∈ ips, get_value s = get_value t) :
    ∃ j, j ≤ 31 ∧ differsAt (ips.map get_value) j = true ∧
      (∀ k, j < k → differsAt (ips.map get_value) k = false) ∧
      get_ip_cidr_from_ips ips =
        .ok (value_to_ip ((2 ^ 32 - 2 ^ (j + 1)) &&& (ips.map get_value).headD 0) ++
          '/' :: natStr (32 - (j + 1))) := by
  push_neg at hnall
  obtain ⟨s1, hs1, s2, hs2, hvne⟩ := hnall
  have hbit : ∃ j, Nat.testBit (get_value s1) j ≠ Nat.testBit (get_value s2) j := by
    by_contra h
    push_neg at h
    exact hvne (Nat.eq_of_testBit_eq h)
  obtain ⟨j, hj⟩ := hbit
  have hj31 : j ≤ 31 := by
    by_contra hgt
    have h1 : Nat.testBit (get_value s1) j = false :=
      Nat.testBit_lt_two_pow (lt_of_lt_of_le (hlt s1 hs1)
        (Nat.pow_le_pow_right (by omega) (by omega)))
    have h2 : Nat.testBit (get_value s2) j = false :=
      Nat.testBit_lt_two_pow (lt_of_lt_of_le (hlt s2 hs2)
        (Nat.pow_le_pow_right (by omega) (by omega)))
    rw [h1, h2] at hj
    exact hj rfl
  have hdj : differsAt (ips.map get_value) j = true :=
    differsAt_iff.mpr ⟨_, List.mem_map_of_mem _ hs1, _, List.mem_map_of_mem _ hs2, hj⟩
  have hd0 : differsAt (ips.map get_value)
      (Nat.findGreatest (fun i => differsAt (ips.map get_value) i = true) 31) = true :=
    @Nat.findGreatest_spec j (fun i => differsAt (ips.map get_value) i = true) _ 31 hj31 hdj
  have hle : Nat.findGreatest (fun i => differsAt (ips.map get_value) i = true) 31 ≤ 31 :=
    @Nat.findGreatest_le (fun i => differsAt (ips.map get_value) i = true) _ 31
  have habove : ∀ k,
      Nat.findGreatest (fun i => differsAt (ips.map get_value) i = true) 31 < k →
      differsAt (ips.map get_value) k = false := by
    intro k hk
    by_cases hk31 : k ≤ 31
    · have hng := @Nat.findGreatest_is_greatest k
        (fun i => differsAt (ips.map get_value) i = true) _ 31 hk hk31
      simpa using hng
    · by_contra hcon
      simp only [Bool.not_eq_false] at hcon
      obtain ⟨v1, h1, v2, h2, hvne2⟩ := differsAt_iff.mp hcon
      obtain ⟨t1, ht1, rfl⟩ := List.mem_map.mp h1
      obtain ⟨t2, ht2, rfl⟩ := List.mem_map.mp h2
      have hb1 : Nat.testBit (get_value t1) k = false :=
        Nat.testBit_lt_two_pow (lt_of_lt_of_le (hlt t1 ht1)
          (Nat.pow_le_pow_right (by omega) (by omega)))
      have hb2 : Nat.testBit (get_value t2) k = false :=
        Nat.testBit_lt_two_pow (lt_of_lt_of_le (hlt t2 ht2)
          (Nat.pow_le_pow_right (by omega) (by omega)))
      rw [hb1, hb2] at hvne2
      exact hvne2 rfl
  have hloop : coveringLoop (ips.map get_value) 32 0 =
      (Nat.findGreatest (fun i => differsAt (ips.map get_value) i = true) 31,
       0 + (2 ^ 32 -
        2 ^ (Nat.findGreatest (fun i => differsAt (ips.map get_value) i = true) 31 + 1))) :=
    coveringLoop_diff _ _ hd0 32 0 (by omega) (fun k h1 h2 => habove k h1)
  rw [Nat.zero_add] at hloop
  have hcond : ¬ ((pyProduct (ips.map get_value)).all fun p => p.1 == p.2) = true := by
    intro hc
    exact hvne (all_pairs_eq_iff.mp hc _ (List.mem_map_of_mem _ hs1) _
      (List.mem_map_of_mem _ hs2))
  refine ⟨Nat.findGreatest (fun i => differsAt (ips.map get_value) i = true) 31,
    hle, hd0, habove, ?_⟩
  simp only [get_ip_cidr_from_ips]
  rw [if_neg hcond, hloop]

theorem differsAt_congr {V1 V2 : List Nat} (h : ∀ x, x ∈ V1 ↔ x ∈ V2) (j : Nat) :
    differsAt V1 j = differsAt V2 j := by
  rw [Bool.eq_iff_iff, differsAt_iff, differsAt_iff]
  constructor <;> rintro ⟨v1, h1, v2, h2, hne⟩
  · exact ⟨v1, (h v1).mp h1, v2, (h v2).mp h2, hne⟩
  · exact ⟨v1, (h v1).mpr h1, v2, (h v2).mpr h2, hne⟩

theorem coveringLoop_congr {V1 V2 : List Nat} (h : ∀ j, differsAt V1 j = differsAt V2 j) :
    ∀ i mask, coveringLoop V1 i mask = coveringLoop V2 i mask := by
  intro i
  induction i with
  | zero =>
    intro mask
    rw [coveringLoop, coveringLoop]
  | succ i ih =>
    intro mask
    rw [coveringLoop, coveringLoop, h i]
    by_cases hd : differsAt V2 i = true
    · rw [if_pos hd, if_pos hd]
    · rw [if_neg hd, if_neg hd, ih]

theorem covering_top_bit {ips : List PyStr} (hbit : ∃ a ∈ ips, ∃ b ∈ ips,
      Nat.testBit (get_value a) 31 ≠ Nat.testBit (get_value b) 31) :
    get_ip_cidr_from_ips ips = .ok (quadStr 0 0 0 0 ++ '/' :: natStr 0) := by
  obtain ⟨a, ha, b, hb, hne⟩ := hbit
  have hd : differsAt (ips.map get_value) 31 = true :=
    differsAt_iff.mpr ⟨_, List.mem_map_of_mem _ ha, _, List.mem_map_of_mem _ hb, hne⟩
  have hcond : ¬ ((pyProduct (ips.map get_value)).all fun p => p.1 == p.2) = true := by
    intro hc
    exact hne (by
      rw [all_pairs_eq_iff.mp hc _ (List.mem_map_of_mem _ ha) _
        (List.mem_map_of_mem _ hb)])
  have hloop : coveringLoop (ips.map get_value) 32 0 = (31, 0) := by
    rw [coveringLoop, if_pos hd]
  simp only [get_ip_cidr_from_ips]
  rw [if_neg hcond, hloop]
  show Except.ok (value_to_ip ((0 : Nat) &&& (ips.map get_value).headD 0) ++
    '/' :: natStr (32 - (31 + 1))) = _
  rw [Nat.zero_and]
  decide

theorem covering_mem_invariant {a : PyStr} {l1 l2 : List PyStr}
    (hv : ∀ x : Nat, (∃ s ∈ a :: l1, get_value s = x) ↔ (∃ s ∈ a :: l2, get_value s = x)) :
    get_ip_cidr_from_ips (a :: l1) = get_ip_cidr_from_ips (a :: l2) := by
  have hmm : ∀ x : Nat, x ∈ (a :: l1).map get_value ↔ x ∈ (a :: l2).map get_value := by
    intro x
    rw [List.mem_map, List.mem_map]
    exact hv x
  have hcond : ((pyProduct ((a :: l1).map get_value)).all fun p => p.1 == p.2) =
      ((pyProduct ((a :: l2).map get_value)).all fun p => p.1 == p.2) := by
    rw [Bool.eq_iff_iff, all_pairs_eq_iff, all_pairs_eq_iff]
    constructor <;> intro h v1 h1 v2 h2
    · exact h v1 ((hmm v1).mpr h1) v2 ((hmm v2).mpr h2)
    · exact h v1 ((hmm v1).mp h1) v2 ((hmm v2).mp h2)
  have hloop := coveringLoop_congr (fun j => differsAt_congr hmm j) 32 0
  simp only [get_ip_cidr_from_ips]
  by_cases hc : ((pyProduct ((a :: l2).map get_value)).all fun p => p.1 == p.2) = true
  · rw [if_pos (hcond ▸ hc), if_pos hc]
  · rw [if_neg (by rw [hcond]; exact hc), if_neg hc, hloop]
    rfl

/-- C6: on every non-empty collection of valid dotted quads, coveringCidr
returns the smallest CIDR block containing every input: a canonical
quad-and-mask string whose parsed range contains every input value and
such that no aligned block with a strictly longer mask contains them all;
moreover a collection with all values identical yields the first address
with mask 32, a pair disagreeing at the top bit yields mask 0, and the
result depends only on the first element and on which values occur, so
duplicate entries do not change it. -/
theorem C6_smallest_covering :
    (∀ ips : List PyStr, ips ≠ [] → (∀ a ∈ ips, isQuad a) →
      ∃ c, get_ip_cidr_from_ips ips = .ok c ∧
        ∃ q mk, isQuad q ∧ mk ≤ 32 ∧ c = q ++ '/' :: natStr mk ∧
        ∃ mn mx, ip_cidr_to_ip_value_range c = .ok (mn, mx) ∧
          (∀ a ∈ ips, mn ≤ get_value a ∧ get_value a ≤ mx) ∧
          (∀ m2 b : Nat, m2 ≤ 32 → mk < m2 →
            ¬ (∀ a ∈ ips, b * 2 ^ (32 - m2) ≤ get_value a ∧
                get_value a ≤ b * 2 ^ (32 - m2) + (2 ^ (32 - m2) - 1)))) ∧
    (∀ (a : PyStr) (ips : List PyStr), (∀ s ∈ a :: ips, isQuad s) →
      (∀ s ∈ a :: ips, ∀ t ∈ a :: ips, get_value s = get_value t) →
      get_ip_cidr_from_ips (a :: ips) = .ok (a ++ '/' :: natStr 32)) ∧
    (∀ ips : List PyStr, (∀ a ∈ ips, isQuad a) →
      (∃ a ∈ ips, ∃ b ∈ ips,
        Nat.testBit (get_value a) 31 ≠ Nat.testBit (get_value b) 31) →
      get_ip_cidr_from_ips ips = .ok (quadStr 0 0 0 0 ++ '/' :: natStr 0)) ∧
    (∀ (a : PyStr) (l1 l2 : List PyStr),
      (∀ x : Nat, (∃ s ∈ a :: l1, get_value s = x) ↔
        (∃ s ∈ a :: l2, get_value s = x)) →
      get_ip_cidr_from_ips (a :: l1) = get_ip_cidr_from_ips (a :: l2)) := by
  refine ⟨?_, ?_, ?_, ?_⟩
  · intro ips hne hq
    by_cases hall : ∀ s ∈ ips, ∀ t ∈ ips, get_value s = get_value t
    · cases ips with
      | nil => exact absurd rfl hne
      | cons a rest =>
        obtain ⟨w, x, y, z, hw, hx, hy, hz, hqa⟩ := hq a (List.mem_cons_self _ _)
        have hqv : quadVal w x y z < 2 ^ 32 := by
          unfold quadVal
          simp only [show (2:Nat)^32 = 4294967296 from rfl]
          omega
        have htr : ip_cidr_to_ip_value_range (a ++ '/' :: natStr 32) =
            .ok (quadVal w x y z, quadVal w x y z) := by
          rw [hqa, toRange_canonical hw hx hy hz (le_refl 32)]
          have h0 : (32 : Nat) - 32 = 0 := rfl
          rw [h0, pow_zero]
          have hand : quadVal w x y z &&& (2 ^ 32 - 1) = quadVal w x y z := by
            rw [Nat.and_pow_two_sub_one_eq_mod, Nat.mod_eq_of_lt hqv]
          rw [hand]
          norm_num
        refine ⟨a ++ '/' :: natStr 32, covering_all_equal hall, a, 32,
          ⟨w, x, y, z, hw, hx, hy, hz, hqa⟩, le_refl 32, rfl, _, _, htr, ?_, ?_⟩
        · intro s hs
          have hsv := hall s hs a (List.mem_cons_self _ _)
          rw [hsv, hqa, get_value_quadStr hw hx hy hz]
          exact ⟨le_refl _, le_refl _⟩
        · intro m2 b h1 h2
          omega
    · have hlt : ∀ s ∈ ips, get_value s < 2 ^ 32 := fun s hs => isQuad_lt (hq s hs)
      obtain ⟨j0, hle, hd0, habove, hres⟩ := covering_not_all_equal hne hlt hall
      cases ips with
      | nil => exact absurd rfl hne
      | cons a0 rest =>
        simp only [List.map_cons, List.headD_cons] at hres
        have hK : j0 + 1 ≤ 32 := by omega
        have ha0 : get_value a0 < 2 ^ 32 := hlt a0 (List.mem_cons_self _ _)
        have hpfx_eq : (2 ^ 32 - 2 ^ (j0 + 1)) &&& get_value a0 =
            get_value a0 / 2 ^ (j0 + 1) * 2 ^ (j0 + 1) := by
          rw [Nat.and_comm, and_highmask ha0 hK]
        have hpfx_lt : (2 ^ 32 - 2 ^ (j0 + 1)) &&& get_value a0 < 2 ^ 32 := by
          rw [hpfx_eq]
          exact lt_of_le_of_lt (Nat.div_mul_le_self _ _) ha0
        have hdvd : 2 ^ (j0 + 1) ∣ (2 ^ 32 - 2 ^ (j0 + 1)) &&& get_value a0 :=
          ⟨get_value a0 / 2 ^ (j0 + 1), by rw [hpfx_eq, Nat.mul_comm]⟩
        have hbits : ∀ s ∈ a0 :: rest, ∀ jj, j0 + 1 ≤ jj →
            Nat.testBit (get_value s) jj = Nat.testBit (get_value a0) jj := by
          intro s hs jj hjj
          exact differsAt_false (habove jj (by omega)) _
            (List.mem_map_of_mem _ hs) _
            (List.mem_map_of_mem _ (List.mem_cons_self _ _))
        have hdiv : ∀ s ∈ a0 :: rest,
            get_value s / 2 ^ (j0 + 1) = get_value a0 / 2 ^ (j0 + 1) :=
          fun s hs => div_pow_eq_of_bits_eq (hbits s hs)
        have h32K : 32 - (32 - (j0 + 1)) = j0 + 1 := by omega
        have htr := @toRange_value_to_ip ((2 ^ 32 - 2 ^ (j0 + 1)) &&& get_value a0)
          hpfx_lt (32 - (j0 + 1)) (by omega)
        rw [h32K, and_highmask_self hpfx_lt hK hdvd] at htr
        refine ⟨_, hres, value_to_ip ((2 ^ 32 - 2 ^ (j0 + 1)) &&& get_value a0),
          32 - (j0 + 1), value_to_ip_isQuad _, by omega, rfl, _, _, htr, ?_, ?_⟩
        · intro s hs
          have heq : (2 ^ 32 - 2 ^ (j0 + 1)) &&& get_value a0 =
              get_value s / 2 ^ (j0 + 1) * 2 ^ (j0 + 1) := by
            rw [hpfx_eq, hdiv s hs]
          constructor
          · rw [heq]
            exact Nat.div_mul_le_self _ _
          · have hm : get_value s / 2 ^ (j0 + 1) * 2 ^ (j0 + 1) +
                get_value s % 2 ^ (j0 + 1) = get_value s :=
              Nat.div_add_mod' _ _
            have hmlt : get_value s % 2 ^ (j0 + 1) < 2 ^ (j0 + 1) :=
              Nat.mod_lt _ (Nat.pos_pow_of_pos _ (by omega))
            have h1 : (1 : Nat) ≤ 2 ^ (j0 + 1) := Nat.one_le_two_pow
            rw [heq]
            omega
        · intro m2 b hm2 hmk hblk
          have hs_le : 32 - m2 ≤ j0 := by omega
          obtain ⟨v1, hv1, v2, hv2, hbne⟩ := differsAt_iff.mp hd0
          obtain ⟨t1, ht1, rfl⟩ := List.mem_map.mp hv1
          obtain ⟨t2, ht2, rfl⟩ := List.mem_map.mp hv2
          have d1 := div_eq_of_in_block (hblk t1 ht1).1 (hblk t1 ht1).2
          have d2 := div_eq_of_in_block (hblk t2 ht2).1 (hblk t2 ht2).2
          refine hbne ?_
          rw [@testBit_div_pow (get_value t1) (32 - m2) j0 hs_le,
            @testBit_div_pow (get_value t2) (32 - m2) j0 hs_le, d1, d2]
  · intro a ips _ hall
    exact covering_all_equal hall
  · intro ips _ hbit
    exact covering_top_bit hbit
  · intro a l1 l2 hv
    exact covering_mem_invariant hv

theorem C6_smallest_covering_witness :
    ((∀ s ∈ [quadStr 1 2 3 4], isQuad s) ∧
      (∀ s ∈ [quadStr 1 2 3 4], ∀ t ∈ [quadStr 1 2 3 4],
        get_value s = get_value t)) ∧
    get_ip_cidr_from_ips [quadStr 1 2 3 4] =
      .ok (quadStr 1 2 3 4 ++ '/' :: natStr 32) := by
  have hq : ∀ s ∈ [quadStr 1 2 3 4], isQuad s := by
    intro s hs
    rw [List.mem_singleton] at hs
    exact ⟨1, 2, 3, 4, by omega, by omega, by omega, by omega, hs⟩
  have hall : ∀ s ∈ [quadStr 1 2 3 4], ∀ t ∈ [quadStr 1 2 3 4],
      get_value s = get_value t := by
    intro s hs t ht
    rw [List.mem_singleton] at hs
    rw [List.mem_singleton] at ht
    rw [hs, ht]
  exact ⟨⟨hq, hall⟩, C6_smallest_covering.2.1 (quadStr 1 2 3 4) [] hq hall⟩

/-! Dyadic (CIDR-aligned) ranges and the consolidation pipeline. -/

theorem dyadicRange_bounds {r : IpRange} (h : dyadicRange r) :
    ∃ L k, k ≤ 32 ∧ 2 ^ k ∣ L ∧ L + 2 ^ k ≤ 2 ^ 32 ∧
      get_value r.1 = L ∧ get_value r.2 = L + (2 ^ k - 1) ∧
      r.1 = value_to_ip L ∧ r.2 = value_to_ip (L + (2 ^ k - 1)) := by
  obtain ⟨L, k, hk, hdvd, hle, h1, h2⟩ := h
  have hp : (1 : Nat) ≤ 2 ^ k := Nat.one_le_two_pow
  have hL : L < 2 ^ 32 := by omega
  have hH : L + (2 ^ k - 1) < 2 ^ 32 := by omega
  exact ⟨L, k, hk, hdvd, hle, by rw [h1, value_to_ip_of_lt hL],
    by rw [h2, value_to_ip_of_lt hH], h1, h2⟩

theorem dvd_gap {d a b : Nat} (hd : 0 < d) (ha : d ∣ a) (hb : d ∣ b) (hab : a < b) :
    a + d ≤ b := by
  have hdvd : d ∣ b - a := Nat.dvd_sub' hb ha
  have := Nat.le_of_dvd (by omega) hdvd
  omega

theorem dyadic_nest {L1 k1 L2 k2 : Nat} (hk : k1 ≤ k2)
    (h1 : 2 ^ k1 ∣ L1) (h2 : 2 ^ k2 ∣ L2)
    (hov1 : L2 ≤ L1 + (2 ^ k1 - 1)) (hov2 : L1 ≤ L2 + (2 ^ k2 - 1)) :
    L2 ≤ L1 ∧ L1 + (2 ^ k1 - 1) ≤ L2 + (2 ^ k2 - 1) := by
  have hp1 : (0 : Nat) < 2 ^ k1 := Nat.pos_pow_of_pos _ (by omega)
  have hp2 : (0 : Nat) < 2 ^ k2 := Nat.pos_pow_of_pos _ (by omega)
  have hdd : (2 : Nat) ^ k1 ∣ 2 ^ k2 := pow_dvd_pow 2 hk
  have h2k1 : 2 ^ k1 ∣ L2 := dvd_trans hdd h2
  constructor
  · by_contra hlt
    push_neg at hlt
    have := dvd_gap hp1 h1 h2k1 hlt
    omega
  · have hM1 : 2 ^ k1 ∣ L1 + 2 ^ k1 := Nat.dvd_add h1 dvd_rfl
    have hM2 : 2 ^ k1 ∣ L2 + 2 ^ k2 := Nat.dvd_add h2k1 hdd
    by_contra hlt
    push_neg at hlt
    have hlt2 : L2 + 2 ^ k2 < L1 + 2 ^ k1 := by omega
    have := dvd_gap hp1 hM2 hM1 hlt2
    omega

theorem dyadic_combine {r1 r2 : IpRange} (h1 : dyadicRange r1) (h2 : dyadicRange r2)
    (hov : ip_ranges_overlap r1 r2 = true) : dyadicRange (combine_ip_ranges r1 r2) := by
  obtain ⟨L1, k1, hk1, hd1, hle1, hg1, hg1h, hs1, hs1h⟩ := dyadicRange_bounds h1
  obtain ⟨L2, k2, hk2, hd2, hle2, hg2, hg2h, hs2, hs2h⟩ := dyadicRange_bounds h2
  have hovp := ip_ranges_overlap_iff.mp hov
  unfold rlo rhi at hovp
  rw [hg1, hg1h, hg2, hg2h] at hovp
  rcases le_total k1 k2 with hk | hk
  · obtain ⟨hA, hB⟩ := dyadic_nest hk hd1 hd2 hovp.1 hovp.2
    refine ⟨L2, k2, hk2, hd2, hle2, ?_, ?_⟩
    · show (if get_value r1.1 < get_value r2.1 then r1.1 else r2.1) = value_to_ip L2
      rw [if_neg (by rw [hg1, hg2]; omega)]
      exact hs2
    · show (if get_value r1.2 > get_value r2.2 then r1.2 else r2.2) =
        value_to_ip (L2 + (2 ^ k2 - 1))
      rw [if_neg (by rw [hg1h, hg2h]; omega)]
      exact hs2h
  · obtain ⟨hA, hB⟩ := dyadic_nest hk hd2 hd1 hovp.2 hovp.1
    refine ⟨L1, k1, hk1, hd1, hle1, ?_, ?_⟩
    · show (if get_value r1.1 < get_value r2.1 then r1.1 else r2.1) = value_to_ip L1
      split
    
      · exact hs1
      · next hc =>
        rw [hg1, hg2] at hc
        have hLeq : L1 = L2 := by omega
        rw [hs2, hLeq]
    · show (if get_value r1.2 > get_value r2.2 then r1.2 else r2.2) =
        value_to_ip (L1 + (2 ^ k1 - 1))
      split
      · exact hs1h
      · next hc =>
        rw [hg1h, hg2h] at hc
        have hHeq : L1 + (2 ^ k1 - 1) = L2 + (2 ^ k2 - 1) := by omega
        rw [hs2h, hHeq]

theorem sweep_closed {P : IpRange → Prop}
    (hP : ∀ r1 r2, P r1 → P r2 → ip_ranges_overlap r1 r2 = true →
      P (combine_ip_ranges r1 r2)) :
    ∀ (rs : List IpRange) (last : IpRange), P last → (∀ r ∈ rs, P r) →
      ∀ r ∈ sweep last rs, P r := by
  intro rs
  induction rs with
  | nil =>
    intro last hl _ r hr
    rw [sweep] at hr
    rw [List.mem_singleton] at hr
    rw [hr]
    exact hl
  | cons t rs ih =>
    intro last hl hrs r hr
    rw [sweep] at hr
    by_cases hov : ip_ranges_overlap t last = true
    · rw [if_pos hov] at hr
      exact ih _ (hP t last (hrs t (List.mem_cons_self _ _)) hl hov)
        (fun u hu => hrs u (List.mem_cons_of_mem _ hu)) r hr
    · rw [if_neg hov] at hr
      rcases List.mem_cons.mp hr with rfl | hr2
      · exact hl
      · exact ih t (hrs t (List.mem_cons_self _ _))
          (fun u hu => hrs u (List.mem_cons_of_mem _ hu)) r hr2

theorem consolidate_dyadic {R : List IpRange} (h : ∀ r ∈ R, dyadicRange r) :
    ∀ r ∈ consolidate_ip_ranges R, dyadicRange r := by
  rw [consolidate_ip_ranges_eq_sweep]
  have hperm : (sort_ip_address_ranges R).Perm R := List.perm_insertionSort rangeLe R
  cases hs : sort_ip_address_ranges R with
  | nil =>
    intro r hr
    simp at hr
  | cons x xs =>
    rw [hs] at hperm
    intro r hr
    exact sweep_closed (fun a b => dyadic_combine) xs x
      (h x (hperm.subset (List.mem_cons_self _ _)))
      (fun t ht => h t (hperm.subset (List.mem_cons_of_mem _ ht))) r hr

theorem covering_with_break {ips : List PyStr} {j : Nat} (hj : j ≤ 31)
    (hd : differsAt (ips.map get_value) j = true)
    (habove : ∀ k, j < k → k < 32 → differsAt (ips.map get_value) k = false)
    (hcond : ¬ ((pyProduct (ips.map get_value)).all fun p => p.1 == p.2) = true) :
    get_ip_cidr_from_ips ips =
      .ok (value_to_ip ((2 ^ 32 - 2 ^ (j + 1)) &&& (ips.map get_value).headD 0) ++
        '/' :: natStr (32 - (j + 1))) := by
  have hloop : coveringLoop (ips.map get_value) 32 0 =
      (j, 0 + (2 ^ 32 - 2 ^ (j + 1))) :=
    coveringLoop_diff _ j hd 32 0 (by omega) habove
  rw [Nat.zero_add] at hloop
  simp only [get_ip_cidr_from_ips]
  rw [if_neg hcond, hloop]

theorem testBit_of_dvd {L k j : Nat} (hdvd : 2 ^ k ∣ L) (hj : j < k) :
    Nat.testBit L j = false := by
  obtain ⟨c, rfl⟩ := hdvd
  have h0 : 2 ^ k * c % 2 ^ k = 0 := Nat.mul_mod_right _ _
  have ht := Nat.testBit_mod_two_pow (2 ^ k * c) k j
  rw [h0] at ht
  simp only [Nat.zero_testBit, hj, decide_True, Bool.true_and] at ht
  exact ht.symm

theorem testBit_of_block_high {L k j : Nat} (hdvd : 2 ^ k ∣ L) (hj : j < k) :
    Nat.testBit (L + (2 ^ k - 1)) j = true := by
  obtain ⟨c, rfl⟩ := hdvd
  have hp : (0 : Nat) < 2 ^ k := Nat.pos_pow_of_pos _ (by omega)
  have h0 : (2 ^ k * c + (2 ^ k - 1)) % 2 ^ k = 2 ^ k - 1 := by
    rw [Nat.add_mod, Nat.mul_mod_right, Nat.zero_add, Nat.mod_mod_of_dvd _ dvd_rfl,
      Nat.mod_eq_of_lt (by omega)]
  have ht := Nat.testBit_mod_two_pow (2 ^ k * c + (2 ^ k - 1)) k j
  rw [h0, Nat.testBit_two_pow_sub_one] at ht
  simp only [hj, decide_True, Bool.true_and] at ht
  exact ht.symm

theorem covering_dyadic {L k : Nat} (hk : k ≤ 32) (hdvd : 2 ^ k ∣ L)
    (hle : L + 2 ^ k ≤ 2 ^ 32) :
    get_ip_cidr_from_ips [value_to_ip L, value_to_ip (L + (2 ^ k - 1))] =
      .ok (value_to_ip L ++ '/' :: natStr (32 - k)) ∧
    ip_cidr_to_ip_value_range (value_to_ip L ++ '/' :: natStr (32 - k)) =
      .ok (L, L + (2 ^ k - 1)) := by
  have hp : (1 : Nat) ≤ 2 ^ k := Nat.one_le_two_pow
  have hL : L < 2 ^ 32 := by omega
  have hH : L + (2 ^ k - 1) < 2 ^ 32 := by omega
  have hgL : get_value (value_to_ip L) = L := value_to_ip_of_lt hL
  have hgH : get_value (value_to_ip (L + (2 ^ k - 1))) = L + (2 ^ k - 1) :=
    value_to_ip_of_lt hH
  constructor
  · cases k with
    | zero =>
      have h0 : L + (2 ^ 0 - 1) = L := by norm_num
      rw [h0]
      have hall : ∀ s ∈ value_to_ip L :: [value_to_ip L],
          ∀ t ∈ value_to_ip L :: [value_to_ip L], get_value s = get_value t := by
        intro s hs t ht
        simp only [List.mem_cons, List.not_mem_nil, or_false, or_self] at hs ht
        rw [hs, ht]
      exact covering_all_equal hall
    | succ j =>
      have hmap : ([value_to_ip L, value_to_ip (L + (2 ^ (j + 1) - 1))].map get_value) =
          [L, L + (2 ^ (j + 1) - 1)] := by
        rw [List.map_cons, List.map_cons, List.map_nil, hgL, hgH]
      have hLbit : Nat.testBit L j = false := testBit_of_dvd hdvd (by omega)
      have hHbit : Nat.testBit (L + (2 ^ (j + 1) - 1)) j = true :=
        testBit_of_block_high hdvd (by omega)
      have hdivHL : (L + (2 ^ (j + 1) - 1)) / 2 ^ (j + 1) = L / 2 ^ (j + 1) := by
        have h1 : L / 2 ^ (j + 1) * 2 ^ (j + 1) = L := Nat.div_mul_cancel hdvd
        exact @div_eq_of_in_block (L + (2 ^ (j + 1) - 1)) (L / 2 ^ (j + 1)) (j + 1)
          (by omega) (by omega)
      have hdiffj : differsAt [L, L + (2 ^ (j + 1) - 1)] j = true := by
        refine differsAt_iff.mpr ⟨L, by simp, L + (2 ^ (j + 1) - 1), by simp, ?_⟩
        rw [hLbit, hHbit]
        simp
      have hbitsEq : ∀ kk, j < kk →
          Nat.testBit (L + (2 ^ (j + 1) - 1)) kk = Nat.testBit L kk := by
        intro kk hkk
        rw [@testBit_div_pow (L + (2 ^ (j + 1) - 1)) (j + 1) kk (by omega),
          @testBit_div_pow L (j + 1) kk (by omega), hdivHL]
      have habove : ∀ kk, j < kk → kk < 32 →
          differsAt [L, L + (2 ^ (j + 1) - 1)] kk = false := by
        intro kk h1 _
        by_contra hcon
        simp only [Bool.not_eq_false] at hcon
        obtain ⟨v1, hv1, v2, hv2, hne⟩ := differsAt_iff.mp hcon
        simp only [List.mem_cons, List.not_mem_nil, or_false] at hv1 hv2
        have hb := hbitsEq kk h1
        rcases hv1 with rfl | rfl <;> rcases hv2 with rfl | rfl <;>
          simp [hb] at hne
      have hcond : ¬ ((pyProduct ([L, L + (2 ^ (j + 1) - 1)] : List Nat)).all
          fun p => p.1 == p.2) = true := by
        intro hc
        have heq := all_pairs_eq_iff.mp hc L (by simp) (L + (2 ^ (j + 1) - 1)) (by simp)
        have hp2 : (1 : Nat) ≤ 2 ^ (j + 1) := Nat.one_le_two_pow
        have hp3 : (2 : Nat) ≤ 2 ^ (j + 1) := by
          have : (2 : Nat) ^ 1 ≤ 2 ^ (j + 1) := Nat.pow_le_pow_right (by omega) (by omega)
          simpa using this
        omega
      have hres := covering_with_break (by omega) (hmap ▸ hdiffj)
        (fun kk h1 h2 => hmap ▸ habove kk h1 h2) (by rw [hmap]; exact hcond)
      rw [hres, hmap]
      have hhead : ([L, L + (2 ^ (j + 1) - 1)] : List Nat).headD 0 = L := rfl
      rw [hhead, Nat.and_comm, and_highmask_self hL hk hdvd]
  · have h32k : 32 - (32 - k) = k := by omega
    have htr := @toRange_value_to_ip L hL (32 - k) (by omega)
    rw [h32k, and_highmask_self hL hk hdvd] at htr
    exact htr

theorem mapM_ok_exists {α β : Type} {f : α → Except PyErr β} {P : α → β → Prop} :
    ∀ {l : List α}, (∀ a ∈ l, ∃ b, f a = .ok b ∧ P a b) →
      ∃ bs, l.mapM f = .ok bs ∧ List.Forall₂ P l bs := by
  intro l
  induction l with
  | nil => exact fun _ => ⟨[], rfl, List.Forall₂.nil⟩
  | cons a as ih =>
    intro h
    obtain ⟨b, hfb, hPb⟩ := h a (List.mem_cons_self _ _)
    obtain ⟨bs, hbs, hF⟩ := ih (fun x hx => h x (List.mem_cons_of_mem _ hx))
    refine ⟨b :: bs, ?_, List.Forall₂.cons hPb hF⟩
    rw [List.mapM_cons, hfb, hbs]
    rfl

theorem forall₂_mem_left {α β : Type} {P : α → β → Prop} {l : List α} {bs : List β}
    (h : List.Forall₂ P l bs) : ∀ a ∈ l, ∃ b ∈ bs, P a b := by
  induction h with
  | nil => exact fun a ha => absurd ha (List.not_mem_nil a)
  | cons hPab hF ih =>
    intro x hx
    rcases List.mem_cons.mp hx with rfl | hx2
    · exact ⟨_, List.mem_cons_self _ _, hPab⟩
    · obtain ⟨b, hb, hPb⟩ := ih x hx2
      exact ⟨b, List.mem_cons_of_mem _ hb, hPb⟩

theorem forall₂_mem_right {α β : Type} {P : α → β → Prop} {l : List α} {bs : List β}
    (h : List.Forall₂ P l bs) : ∀ b ∈ bs, ∃ a ∈ l, P a b := by
  induction h with
  | nil => exact fun b hb => absurd hb (List.not_mem_nil b)
  | cons hPab hF ih =>
    intro y hy
    rcases List.mem_cons.mp hy with rfl | hy2
    · exact ⟨_, List.mem_cons_self _ _, hPab⟩
    · obtain ⟨a, ha, hPa⟩ := ih y hy2
      exact ⟨a, List.mem_cons_of_mem _ ha, hPa⟩

theorem forall₂_swap_map {α β γ : Type} {T : β → γ → Prop} {g : α → γ} :
    ∀ {l : List α} {bs : List β}, List.Forall₂ (fun a b => T b (g a)) l bs →
      List.Forall₂ T bs (l.map g) := by
  intro l bs h
  induction h with
  | nil => exact List.Forall₂.nil
  | cons hPab hF ih => exact List.Forall₂.cons hPab ih

/-- C5: consolidate applied to any collection of well-formed CIDR strings
succeeds and returns CIDR strings whose parsed address ranges are pairwise
non-overlapping and collectively cover the union of the ranges of all
input CIDRs. -/
theorem C5_consolidate_disjoint_cover (cidrs : List PyStr)
    (h : ∀ c ∈ cidrs, isCidrStr c) :
    ∃ out rs, consolidate_ip_cidrs cidrs = .ok out ∧
      List.Forall₂ (fun c p => ip_cidr_to_ip_value_range c = .ok p) out rs ∧
      rs.Pairwise (fun p q => ∀ x : Nat,
        ¬(p.1 ≤ x ∧ x ≤ p.2 ∧ q.1 ≤ x ∧ x ≤ q.2)) ∧
      (∀ c ∈ cidrs, ∀ lo hi : Nat, ip_cidr_to_ip_value_range c = .ok (lo, hi) →
        ∀ x : Nat, lo ≤ x → x ≤ hi → ∃ p ∈ rs, p.1 ≤ x ∧ x ≤ p.2) := by
  have hstage1 : ∀ c ∈ cidrs, ∃ r : IpRange, ip_cidr_to_ip_range c = .ok r ∧
      (dyadicRange r ∧
        ip_cidr_to_ip_value_range c = .ok (get_value r.1, get_value r.2)) := by
    intro c hc
    obtain ⟨w, x, y, z, m, hw, hx, hy, hz, hm, rfl⟩ := h c hc
    have htr := toRange_canonical hw hx hy hz hm
    have hqv : quadVal w x y z < 2 ^ 32 := by
      unfold quadVal
      simp only [show (2:Nat)^32 = 4294967296 from rfl]
      omega
    have hk32 : 32 - m ≤ 32 := by omega
    have hmn_eq : quadVal w x y z &&& (2 ^ 32 - 2 ^ (32 - m)) =
        quadVal w x y z / 2 ^ (32 - m) * 2 ^ (32 - m) := and_highmask hqv hk32
    have hmn_le : quadVal w x y z &&& (2 ^ 32 - 2 ^ (32 - m)) ≤ 2 ^ 32 - 2 ^ (32 - m) :=
      Nat.and_le_right
    have hps : (1 : Nat) ≤ 2 ^ (32 - m) := Nat.one_le_two_pow
    have hple : (2 : Nat) ^ (32 - m) ≤ 2 ^ 32 := Nat.pow_le_pow_right (by omega) (by omega)
    refine ⟨(value_to_ip (quadVal w x y z &&& (2 ^ 32 - 2 ^ (32 - m))),
             value_to_ip ((quadVal w x y z &&& (2 ^ 32 - 2 ^ (32 - m))) +
               (2 ^ (32 - m) - 1))),
      ?_, ⟨⟨quadVal w x y z &&& (2 ^ 32 - 2 ^ (32 - m)), 32 - m, hk32,
        ⟨quadVal w x y z / 2 ^ (32 - m), by rw [hmn_eq, Nat.mul_comm]⟩,
        by omega, rfl, rfl⟩, ?_⟩⟩
    · unfold ip_cidr_to_ip_range
      rw [htr]
      rfl
    · rw [htr, value_to_ip_of_lt (by omega), value_to_ip_of_lt (by omega)]
  obtain ⟨ranges, hmap1, hF1⟩ := mapM_ok_exists hstage1
  have hdyadic : ∀ r ∈ ranges, dyadicRange r := by
    intro r hr
    obtain ⟨c, _, hPc⟩ := forall₂_mem_right hF1 r hr
    exact hPc.1
  have hwf : ∀ r ∈ ranges, rlo r ≤ rhi r := by
    intro r hr
    obtain ⟨L, k, _, _, _, hg1, hg2, _, _⟩ := dyadicRange_bounds (hdyadic r hr)
    unfold rlo rhi
    rw [hg1, hg2]
    omega
  obtain ⟨sp1, sp2, sp3, sp4⟩ := consolidate_spec ranges hwf
  have hdy2 : ∀ r ∈ consolidate_ip_ranges ranges, dyadicRange r :=
    consolidate_dyadic hdyadic
  have hstage2 : ∀ r ∈ consolidate_ip_ranges ranges, ∃ c,
      get_ip_cidr_from_ips [r.1, r.2] = .ok c ∧
      ip_cidr_to_ip_value_range c = .ok (get_value r.1, get_value r.2) := by
    intro r hr
    obtain ⟨L, k, hk, hdvd, hle, hg1, hg2, hs1, hs2⟩ := dyadicRange_bounds (hdy2 r hr)
    obtain ⟨hc1, hc2⟩ := covering_dyadic hk hdvd hle
    refine ⟨value_to_ip L ++ '/' :: natStr (32 - k), ?_, ?_⟩
    · rw [hs1, hs2]
      exact hc1
    · rw [hg1, hg2]
      exact hc2
  obtain ⟨out, hmap2, hF2⟩ := mapM_ok_exists hstage2
  refine ⟨out,
    (consolidate_ip_ranges ranges).map (fun r => (get_value r.1, get_value r.2)),
    ?_, ?_, ?_, ?_⟩
  · unfold consolidate_ip_cidrs
    rw [hmap1]
    exact hmap2
  · exact forall₂_swap_map hF2
  · rw [List.pairwise_map]
    refine sp2.imp ?_
    intro a b hab x hx
    unfold rhi rlo at hab
    omega
  · intro c hc lo hi htoR x hlo hhi
    obtain ⟨r, hrmem, hdyr, htoR2⟩ := forall₂_mem_left hF1 c hc
    rw [htoR] at htoR2
    simp only [Except.ok.injEq, Prod.mk.injEq] at htoR2
    obtain ⟨hlo_eq, hhi_eq⟩ := htoR2
    have hx_in : ∃ rr ∈ consolidate_ip_ranges ranges, inRange x rr :=
      (sp3 x).mp ⟨r, hrmem, by unfold inRange rlo rhi; omega⟩
    obtain ⟨rr, hrr, hxin⟩ := hx_in
    exact ⟨(get_value rr.1, get_value rr.2), List.mem_map_of_mem _ hrr,
      hxin.1, hxin.2⟩

theorem C5_consolidate_disjoint_cover_witness :
    (∀ c ∈ ["10.0.0.0/8".toList], isCidrStr c) ∧
    (∃ out rs, consolidate_ip_cidrs ["10.0.0.0/8".toList] = .ok out ∧
      List.Forall₂ (fun c p => ip_cidr_to_ip_value_range c = .ok p) out rs ∧
      rs.Pairwise (fun p q => ∀ x : Nat,
        ¬(p.1 ≤ x ∧ x ≤ p.2 ∧ q.1 ≤ x ∧ x ≤ q.2)) ∧
      (∀ c ∈ ["10.0.0.0/8".toList], ∀ lo hi : Nat,
        ip_cidr_to_ip_value_range c = .ok (lo, hi) →
        ∀ x : Nat, lo ≤ x → x ≤ hi → ∃ p ∈ rs, p.1 ≤ x ∧ x ≤ p.2)) := by
  have hq : ∀ c ∈ ["10.0.0.0/8".toList], isCidrStr c := by
    intro c hc
    rw [List.mem_singleton] at hc
    refine ⟨10, 0, 0, 0, 8, by omega, by omega, by omega, by omega, by omega, ?_⟩
    rw [hc]
    decide
  exact ⟨hq, C5_consolidate_disjoint_cover _ hq⟩
